import Mathlib

/-!
Verification development for the miniredis server (Go).

Shallow embedding of the RESP protocol parser (`internal/miniredis/resp.go`,
streaming version with `RESPReader.ReadCommands`), the value model
(`core.go`-style `MiniRedisData` / `MiniRedisObject`), the keyspace
(`concurrentmap.go`, locks elided since each operation is atomic under the
lock), the command handlers (`server.go`), and the buffered response writer.

Go bytes are modelled as `Nat` (byte values 0..255), Go byte slices and
strings as `List Nat`, Go `int64` as `Int` with explicit wrap-around
(`wrap64`) at the two places in `parseBulkString` where the Go code performs
64-bit integer arithmetic that can overflow.  A Go `nil` slice is
distinguished from an empty slice by `Option (List Nat)`
(`none` = nil, `some []` = empty non-nil).  Runtime panics (out-of-range
slice expressions) are modelled by an explicit `panicked` result.
Heap-allocation failure (`make` with an enormous length in `parseArray`) is
not modelled: it is a memory-capacity concern, not program logic.
-/

namespace MiniRedis

/-- CRLF byte pair `\r\n` = `[13, 10]`. -/
def CRLF : List Nat := [13, 10]

/-- Embeds `CLRFIndex` (resp.go): index of the first `\r\n` pair in the
buffer, scanning positions `0 .. len-2`; Go returns `-1` when absent,
modelled as `none`. -/
def CLRFIndex : List Nat → Option Nat
  | a :: b :: rest =>
      if a = 13 ∧ b = 10 then some 0
      else (CLRFIndex (b :: rest)).map (· + 1)
  | _ => none

/-- Accumulating decimal-digit parser: `none` unless every byte is an ASCII
digit. Mirrors the digit loop inside Go `strconv.ParseInt`. -/
def parseDigitsAux : List Nat → Nat → Option Nat
  | [], acc => some acc
  | d :: rest, acc =>
      if 48 ≤ d ∧ d ≤ 57 then parseDigitsAux rest (acc * 10 + (d - 48)) else none

/-- Magnitude-and-range stage of `strconv.ParseInt`: the digit string (after
an optional sign, already peeled) must be nonempty and all digits, and the
signed value must fit in a signed 64-bit integer (Go reports `ErrRange`
otherwise, which every caller treats as a parse failure). -/
def goParseMag (digits : List Nat) (neg : Bool) : Option Int :=
  match digits with
  | [] => none
  | _ =>
    match parseDigitsAux digits 0 with
    | none => none
    | some n =>
        let v : Int := if neg then -(n : Int) else (n : Int)
        if -(2 ^ 63) ≤ v ∧ v ≤ 2 ^ 63 - 1 then some v else none

/-- Embeds `strconv.ParseInt(s, 10, 64)` as used by the parser: an optional
leading `+` or `-`, then the magnitude stage. -/
def goParseInt64 (s : List Nat) : Option Int :=
  match s with
  | [] => none
  | c :: rest =>
      if c = 45 then goParseMag rest true
      else if c = 43 then goParseMag rest false
      else goParseMag (c :: rest) false

/-- Signed 64-bit wrap-around: the value a Go `int64`/`int` addition
produces when the mathematical result is `x`. -/
def wrap64 (x : Int) : Int := (x + 2 ^ 63) % 2 ^ 64 - 2 ^ 63

/-- Embeds the `RESPData` interface and its four implementations
(`RESPSimpleString`, `RESPBulkString`, `RESPInteger`, `RESPArray`).
`bulk none` is the null bulk string (Go `data: nil`); `array none` the null
array. -/
inductive RESPData where
  | simple (s : List Nat)
  | bulk (data : Option (List Nat))
  | int (n : Int)
  | array (elems : Option (List RESPData))

/-- Result of the pure frame parser: mirrors the Go
`(RESPData, int, error)` triple.  `ok v c` is a successful parse consuming
`c` bytes; `incomplete` is `ErrIncompleteRESPValue`; `malformed` any other
parse error (unknown type byte, bad integer); `panicked` a Go runtime panic
(slice bounds out of range). -/
inductive ParseResult where
  | ok (v : RESPData) (consumed : Nat)
  | incomplete
  | malformed
  | panicked

/-- Result of the integer-line helper `parseInteger` (resp.go): the decoded
`int64` and bytes consumed, or the error cases. -/
inductive IntLineRes where
  | ok (v : Int) (consumed : Nat)
  | incomplete
  | malformed
  deriving DecidableEq

/-- Embeds `parseInteger` (resp.go): find the first CRLF, parse
`buf[1:end]` as a signed 64-bit decimal, consume `end + 2` bytes. -/
def parseIntLine (buf : List Nat) : IntLineRes :=
  match CLRFIndex buf with
  | none => .incomplete
  | some e =>
      match goParseInt64 ((buf.take e).drop 1) with
      | none => .malformed
      | some v => .ok v (e + 2)

/-- The `:` branch of `parseSingleValue`: wraps the integer line in a
`RESPInteger` frame. -/
def parseIntegerFrame (buf : List Nat) : ParseResult :=
  match parseIntLine buf with
  | .ok v c => .ok (.int v) c
  | .incomplete => .incomplete
  | .malformed => .malformed

/-- Embeds `parseBulkString` (resp.go).  After the length line with value
`L` and consumed `c`: negative `L` is the null bulk string consuming only
the length line; otherwise the Go code checks
`int64(len(buf)) < parsedLength + int64(consumed) + 2` (64-bit addition,
hence `wrap64`) and then slices `buf[c : c + int(parsedLength)]`
(64-bit addition again); an out-of-range slice expression panics. -/
def parseBulkString (buf : List Nat) : ParseResult :=
  match parseIntLine buf with
  | .incomplete => .incomplete
  | .malformed => .malformed
  | .ok L c =>
      if L < 0 then .ok (.bulk none) c
      else if (buf.length : Int) < wrap64 (L + (c : Int) + 2) then .incomplete
      else if (c : Int) ≤ wrap64 ((c : Int) + L) ∧ wrap64 ((c : Int) + L) ≤ (buf.length : Int)
        then
          .ok (.bulk (some ((buf.drop c).take (wrap64 ((c : Int) + L) - (c : Int)).toNat)))
            ((wrap64 ((c : Int) + L)).toNat + 2)
        else .panicked

/-- Embeds `parseSimpleString` (resp.go): text up to the first CRLF,
consuming `end + 2` bytes. -/
def parseSimpleString (buf : List Nat) : ParseResult :=
  match CLRFIndex buf with
  | none => .incomplete
  | some e => .ok (.simple ((buf.take e).drop 1)) (e + 2)

/-- Result of the child-frame loop of `parseArray`: the parsed elements and
total bytes they consumed, or the propagated child error. -/
inductive ElemsResult where
  | ok (elems : List RESPData) (consumed : Nat)
  | incomplete
  | malformed
  | panicked

/-- The counted loop of `parseArray` (resp.go), abstracted over the
child-frame parser `p`: parse `n` child frames from the front of `buf`,
accumulating consumed bytes; a child error propagates (the Go code returns
`(nil, 0, err)`). -/
def parseElemsWith (p : List Nat → ParseResult) : Nat → List Nat → ElemsResult
  | 0, _ => .ok [] 0
  | n + 1, buf =>
      match p buf with
      | .ok v c =>
          match parseElemsWith p n (buf.drop c) with
          | .ok elems tc => .ok (v :: elems) (c + tc)
          | .incomplete => .incomplete
          | .malformed => .malformed
          | .panicked => .panicked
      | .incomplete => .incomplete
      | .malformed => .malformed
      | .panicked => .panicked

/-- Fuel-indexed body of `parseSingleValue` (resp.go): dispatch on the first
byte (`:` 58, `$` 36, `+` 43, `*` 42); empty buffer is incomplete; an
unknown type byte is malformed.  The `*` branch embeds `parseArray`: parse
the length line, treat a negative length as the null array consuming only
the length line, otherwise parse that many child frames.  The fuel only
bounds array-nesting recursion depth so that the definition is structurally
recursive; `parseSingleValue_unfold` below shows that with the fuel used by
`parseSingleValue` the equations are exactly the Go recursion. -/
def parseFuel : Nat → List Nat → ParseResult
  | 0, _ => .incomplete
  | f + 1, buf =>
      match buf with
      | [] => .incomplete
      | t :: rest =>
          if t = 58 then parseIntegerFrame (t :: rest)
          else if t = 36 then parseBulkString (t :: rest)
          else if t = 43 then parseSimpleString (t :: rest)
          else if t = 42 then
            match CLRFIndex (t :: rest) with
            | none => .incomplete
            | some e =>
                match goParseInt64 (((t :: rest).take e).drop 1) with
                | none => .malformed
                | some L =>
                    if L < 0 then .ok (.array none) (e + 2)
                    else
                      match parseElemsWith (parseFuel f) L.toNat ((t :: rest).drop (e + 2)) with
                      | .ok elems tc => .ok (.array (some elems)) (e + 2 + tc)
                      | .incomplete => .incomplete
                      | .malformed => .malformed
                      | .panicked => .panicked
          else .malformed

/-- Embeds `parseSingleValue` (resp.go).  `buf.length + 1` fuel always
suffices because each array level consumes its length line (at least one
byte) before recursing into children. -/
def parseSingleValue (buf : List Nat) : ParseResult :=
  parseFuel (buf.length + 1) buf

/-- Embeds the child-frame loop of `parseArray` (resp.go) with the real
child parser. -/
def parseElems (n : Nat) (buf : List Nat) : ElemsResult :=
  parseElemsWith parseSingleValue n buf

/-! ### Basic facts about `CLRFIndex` -/

/-- One-step characterization of `CLRFIndex` that avoids the two-element
pattern of the definition. -/
theorem CLRFIndex_cons (a : Nat) (l : List Nat) :
    CLRFIndex (a :: l) =
      if a = 13 ∧ l.head? = some 10 then some 0 else (CLRFIndex l).map (· + 1) := by
  cases l with
  | nil => simp [CLRFIndex]
  | cons b r => rw [CLRFIndex]; simp

theorem CLRFIndex_bound {u : List Nat} {e : Nat} (h : CLRFIndex u = some e) :
    e + 2 ≤ u.length := by
  induction u generalizing e with
  | nil => simp [CLRFIndex] at h
  | cons a l ih =>
      rw [CLRFIndex_cons] at h
      split at h
      · rename_i hab
        have he : e = 0 := by simpa using h.symm
        subst he
        cases l with
        | nil => simp at hab
        | cons b r => simp
      · simp only [Option.map_eq_some'] at h
        obtain ⟨e', he', rfl⟩ := h
        have := ih he'
        simp only [List.length_cons]
        omega

/-- The first CRLF of `u` is still the first CRLF after truncating `u`
anywhere past it and appending anything. -/
theorem CLRFIndex_take_append {u : List Nat} {e : Nat} (h : CLRFIndex u = some e)
    {j : Nat} (hj : e + 2 ≤ j) (w : List Nat) :
    CLRFIndex (u.take j ++ w) = some e := by
  induction u generalizing e j w with
  | nil => simp [CLRFIndex] at h
  | cons a l ih =>
      rw [CLRFIndex_cons] at h
      match j, hj with
      | j + 1, hj =>
        simp only [List.take_succ_cons, List.cons_append]
        rw [CLRFIndex_cons]
        split at h
        · rename_i hab
          have he : e = 0 := by simp_all
          subst he
          obtain ⟨ha, hb⟩ := hab
          cases l with
          | nil => simp at hb
          | cons b r =>
              simp only [List.head?_cons, Option.some.injEq] at hb
              have : 1 ≤ j := by omega
              have hhead : ((b :: r).take j ++ w).head? = some b := by
                cases j with
                | zero => omega
                | succ j' => simp
              have hcond : a = 13 ∧ ((b :: r).take j ++ w).head? = some 10 := by
                exact ⟨ha, by rw [hhead, hb]⟩
              rw [if_pos hcond]
        · rename_i hab
          simp only [Option.map_eq_some'] at h
          obtain ⟨e', he', rfl⟩ := h
          have hj' : e' + 2 ≤ j := by omega
          have htail := ih he' hj' w
          have hne : ¬(a = 13 ∧ (l.take j ++ w).head? = some 10) := by
            intro ⟨ha, hhd⟩
            apply hab
            refine ⟨ha, ?_⟩
            have hb2 := CLRFIndex_bound he'
            cases l with
            | nil => simp at hb2
            | cons b r =>
                cases j with
                | zero => omega
                | succ j' => simp_all
          rw [if_neg hne, htail]
          rfl

/-- Before the first CRLF of `u` there is no CRLF: truncating at or before
`e + 1` loses it. -/
theorem CLRFIndex_take_none {u : List Nat} {e : Nat} (h : CLRFIndex u = some e)
    {j : Nat} (hj : j ≤ e + 1) : CLRFIndex (u.take j) = none := by
  induction u generalizing e j with
  | nil => simp [CLRFIndex]
  | cons a l ih =>
      rw [CLRFIndex_cons] at h
      cases j with
      | zero => simp [CLRFIndex]
      | succ j =>
        simp only [List.take_succ_cons]
        rw [CLRFIndex_cons]
        split at h
        · rename_i hab
          have he : e = 0 := by simp_all
          subst he
          obtain ⟨ha, hb⟩ := hab
          have hj0 : j = 0 := by omega
          subst hj0
          simp [CLRFIndex]
        · rename_i hab
          simp only [Option.map_eq_some'] at h
          obtain ⟨e', he', rfl⟩ := h
          have htail := ih he' (j := j) (by omega)
          have hne : ¬(a = 13 ∧ (l.take j).head? = some 10) := by
            intro ⟨ha, hhd⟩
            apply hab
            refine ⟨ha, ?_⟩
            have hb2 := CLRFIndex_bound he'
            cases l with
            | nil => simp at hb2
            | cons b r =>
                cases j with
                | zero => simp at hhd
                | succ j' => simp_all
          rw [if_neg hne, htail]
          rfl

/-! ### Fuel elimination: the parser satisfies the Go recursion equations -/

theorem parseFuel_mono_aux (len : Nat) :
    (∀ (buf : List Nat) (F1 F2 : Nat), buf.length ≤ len →
       buf.length < F1 → buf.length < F2 → parseFuel F1 buf = parseFuel F2 buf) ∧
    (∀ (n : Nat) (d : List Nat) (F1 F2 : Nat), d.length ≤ len →
       d.length < F1 → d.length < F2 →
       parseElemsWith (parseFuel F1) n d = parseElemsWith (parseFuel F2) n d) := by
  induction len using Nat.strong_induction_on with
  | _ len ih =>
    have hsingle : ∀ (buf : List Nat) (F1 F2 : Nat), buf.length ≤ len →
        buf.length < F1 → buf.length < F2 → parseFuel F1 buf = parseFuel F2 buf := by
      intro buf F1 F2 hlen h1 h2
      match F1, h1 with
      | f1 + 1, h1 =>
      match F2, h2 with
      | f2 + 1, h2 =>
      cases buf with
      | nil => rfl
      | cons t rest =>
        simp only [parseFuel]
        split_ifs with h58 h36 h43 h42
        · rfl
        · rfl
        · rfl
        · cases hcl : CLRFIndex (t :: rest) with
          | none => rfl
          | some e =>
            dsimp only
            cases hint : goParseInt64 (((t :: rest).take e).drop 1) with
            | none => rfl
            | some L =>
              dsimp only
              split_ifs with hneg
              · rfl
              · have hd : ((t :: rest).drop (e + 2)).length < (t :: rest).length := by
                  simp only [List.length_drop, List.length_cons]
                  omega
                have hlt : ((t :: rest).drop (e + 2)).length < len := by
                  simp only [List.length_cons] at hlen
                  simp only [List.length_drop, List.length_cons]
                  omega
                have hf1 : ((t :: rest).drop (e + 2)).length < f1 := by
                  simp only [List.length_cons] at h1
                  simp only [List.length_drop, List.length_cons]
                  omega
                have hf2 : ((t :: rest).drop (e + 2)).length < f2 := by
                  simp only [List.length_cons] at h2
                  simp only [List.length_drop, List.length_cons]
                  omega
                rw [(ih _ hlt).2 L.toNat ((t :: rest).drop (e + 2)) f1 f2 le_rfl hf1 hf2]
        · rfl
    refine ⟨hsingle, ?_⟩
    intro n
    induction n with
    | zero => intro d F1 F2 _ _ _; rfl
    | succ n ihn =>
      intro d F1 F2 hlen h1 h2
      simp only [parseElemsWith]
      rw [hsingle d F1 F2 hlen h1 h2]
      cases hres : parseFuel F2 d with
      | ok v c =>
        simp only []
        rw [ihn (d.drop c) F1 F2 (by simp only [List.length_drop]; omega)
              (by simp only [List.length_drop]; omega)
              (by simp only [List.length_drop]; omega)]
      | incomplete => rfl
      | malformed => rfl
      | panicked => rfl

theorem parseFuel_mono {buf : List Nat} {F1 F2 : Nat}
    (h1 : buf.length < F1) (h2 : buf.length < F2) :
    parseFuel F1 buf = parseFuel F2 buf :=
  (parseFuel_mono_aux buf.length).1 buf F1 F2 le_rfl h1 h2

theorem parseElemsWith_fuel {n : Nat} {d : List Nat} {F : Nat} (h : d.length < F) :
    parseElemsWith (parseFuel F) n d = parseElems n d := by
  induction n generalizing d with
  | zero => rfl
  | succ n ihn =>
    rw [parseElems]
    simp only [parseElemsWith]
    have hone : parseFuel F d = parseSingleValue d :=
      parseFuel_mono h (by omega)
    rw [hone]
    cases hres : parseSingleValue d with
    | ok v c =>
      simp only []
      rw [ihn (d := d.drop c) (by simp only [List.length_drop]; omega)]
      rfl
    | incomplete => rfl
    | malformed => rfl
    | panicked => rfl

/-- The recursion equation of `parseSingleValue` exactly as `parseSingleValue`
and `parseArray` are written in resp.go (the fuel of the Lean definition is
invisible at or above the fuel `parseSingleValue` supplies). -/
theorem parseSingleValue_eq (buf : List Nat) :
    parseSingleValue buf =
      match buf with
      | [] => .incomplete
      | t :: rest =>
          if t = 58 then parseIntegerFrame (t :: rest)
          else if t = 36 then parseBulkString (t :: rest)
          else if t = 43 then parseSimpleString (t :: rest)
          else if t = 42 then
            match CLRFIndex (t :: rest) with
            | none => .incomplete
            | some e =>
                match goParseInt64 (((t :: rest).take e).drop 1) with
                | none => .malformed
                | some L =>
                    if L < 0 then .ok (.array none) (e + 2)
                    else
                      match parseElems L.toNat ((t :: rest).drop (e + 2)) with
                      | .ok elems tc => .ok (.array (some elems)) (e + 2 + tc)
                      | .incomplete => .incomplete
                      | .malformed => .malformed
                      | .panicked => .panicked
          else .malformed := by
  cases buf with
  | nil => rfl
  | cons t rest =>
    dsimp only
    show parseFuel (rest.length + 1 + 1) (t :: rest) = _
    rw [parseFuel]
    split_ifs with h58 h36 h43 h42
    · rfl
    · rfl
    · rfl
    · cases hcl : CLRFIndex (t :: rest) with
      | none => rfl
      | some e =>
        dsimp only
        cases hint : goParseInt64 (((t :: rest).take e).drop 1) with
        | none => rfl
        | some L =>
          dsimp only
          split_ifs with hneg
          · rfl
          · rw [parseElemsWith_fuel (by simp only [List.length_drop, List.length_cons]; omega)]
    · rfl

/-- Inversion for a successful integer-line parse. -/
theorem parseIntLine_ok {buf : List Nat} {v : Int} {c : Nat}
    (h : parseIntLine buf = .ok v c) :
    ∃ e, CLRFIndex buf = some e ∧ goParseInt64 ((buf.take e).drop 1) = some v ∧
      c = e + 2 := by
  unfold parseIntLine at h
  cases hcl : CLRFIndex buf with
  | none => rw [hcl] at h; dsimp only at h; cases h
  | some e =>
    rw [hcl] at h
    dsimp only at h
    cases hint : goParseInt64 ((buf.take e).drop 1) with
    | none => rw [hint] at h; dsimp only at h; cases h
    | some v' =>
      rw [hint] at h
      dsimp only at h
      cases h
      exact ⟨e, rfl, hint, rfl⟩

/-! ### Inversion lemmas for the frame parsers -/

theorem goParseMag_range {digits : List Nat} {neg : Bool} {v : Int}
    (h : goParseMag digits neg = some v) : -(2 ^ 63) ≤ v ∧ v ≤ 2 ^ 63 - 1 := by
  unfold goParseMag at h
  cases digits with
  | nil => cases h
  | cons d rest =>
    dsimp only at h
    cases hpd : parseDigitsAux (d :: rest) 0 with
    | none => rw [hpd] at h; cases h
    | some n =>
      rw [hpd] at h
      dsimp only at h
      by_cases hrange : -(2 ^ 63) ≤ (if neg then -(n : Int) else (n : Int)) ∧
          (if neg then -(n : Int) else (n : Int)) ≤ 2 ^ 63 - 1
      · rw [if_pos hrange] at h
        cases h
        exact hrange
      · rw [if_neg hrange] at h
        cases h

theorem goParseInt64_range {s : List Nat} {v : Int} (h : goParseInt64 s = some v) :
    -(2 ^ 63) ≤ v ∧ v ≤ 2 ^ 63 - 1 := by
  unfold goParseInt64 at h
  cases s with
  | nil => cases h
  | cons c rest =>
    dsimp only at h
    split_ifs at h <;> exact goParseMag_range h

theorem wrap64_eq_self {x : Int} (h1 : -(2 ^ 63) ≤ x) (h2 : x < 2 ^ 63) :
    wrap64 x = x := by
  unfold wrap64
  rw [Int.emod_eq_of_lt (by omega) (by omega)]
  omega

theorem wrap64_cases {x : Int} (h0 : 0 ≤ x) (h1 : x < 2 ^ 64) :
    (x < 2 ^ 63 ∧ wrap64 x = x) ∨ (2 ^ 63 ≤ x ∧ wrap64 x = x - 2 ^ 64) := by
  rcases lt_or_le x (2 ^ 63) with h | h
  · exact Or.inl ⟨h, wrap64_eq_self (by omega) h⟩
  · refine Or.inr ⟨h, ?_⟩
    unfold wrap64
    have hrw : x + 2 ^ 63 = (x + 2 ^ 63 - 2 ^ 64) + 2 ^ 64 * 1 := by ring
    rw [hrw, Int.add_mul_emod_self_left, Int.emod_eq_of_lt (by omega) (by omega)]
    ring

theorem parseIntegerFrame_ok {buf : List Nat} {v : RESPData} {c : Nat}
    (h : parseIntegerFrame buf = .ok v c) :
    ∃ n e, CLRFIndex buf = some e ∧ goParseInt64 ((buf.take e).drop 1) = some n ∧
      v = .int n ∧ c = e + 2 := by
  unfold parseIntegerFrame at h
  cases hil : parseIntLine buf with
  | ok n c' =>
    rw [hil] at h
    dsimp only at h
    cases h
    obtain ⟨e, hcl, hint, hc⟩ := parseIntLine_ok hil
    exact ⟨n, e, hcl, hint, rfl, hc⟩
  | incomplete => rw [hil] at h; cases h
  | malformed => rw [hil] at h; cases h

theorem parseSimpleString_ok {buf : List Nat} {v : RESPData} {c : Nat}
    (h : parseSimpleString buf = .ok v c) :
    ∃ e, CLRFIndex buf = some e ∧ v = .simple ((buf.take e).drop 1) ∧ c = e + 2 := by
  unfold parseSimpleString at h
  cases hcl : CLRFIndex buf with
  | none => rw [hcl] at h; cases h
  | some e =>
    rw [hcl] at h
    dsimp only at h
    cases h
    exact ⟨e, rfl, rfl, rfl⟩

/-- Raw inversion for a successful bulk-string parse, with the 64-bit
arithmetic still in wrapped form. -/
theorem parseBulkString_ok_raw {buf : List Nat} {v : RESPData} {c : Nat}
    (h : parseBulkString buf = .ok v c) :
    ∃ L cl, parseIntLine buf = .ok L cl ∧
      ((L < 0 ∧ v = .bulk none ∧ c = cl) ∨
       (0 ≤ L ∧ ¬((buf.length : Int) < wrap64 (L + (cl : Int) + 2)) ∧
        (cl : Int) ≤ wrap64 ((cl : Int) + L) ∧ wrap64 ((cl : Int) + L) ≤ (buf.length : Int) ∧
        v = .bulk (some ((buf.drop cl).take (wrap64 ((cl : Int) + L) - (cl : Int)).toNat)) ∧
        c = (wrap64 ((cl : Int) + L)).toNat + 2)) := by
  unfold parseBulkString at h
  cases hil : parseIntLine buf with
  | incomplete => rw [hil] at h; cases h
  | malformed => rw [hil] at h; cases h
  | ok L cl =>
    rw [hil] at h
    dsimp only at h
    refine ⟨L, cl, rfl, ?_⟩
    by_cases hneg : L < 0
    · rw [if_pos hneg] at h
      cases h
      exact Or.inl ⟨hneg, rfl, rfl⟩
    · rw [if_neg hneg] at h
      by_cases hincpl : (buf.length : Int) < wrap64 (L + (cl : Int) + 2)
      · rw [if_pos hincpl] at h; cases h
      · rw [if_neg hincpl] at h
        by_cases hslice : (cl : Int) ≤ wrap64 ((cl : Int) + L) ∧
            wrap64 ((cl : Int) + L) ≤ (buf.length : Int)
        · rw [if_pos hslice] at h
          cases h
          exact Or.inr ⟨by omega, hincpl, hslice.1, hslice.2, rfl, rfl⟩
        · rw [if_neg hslice] at h; cases h

/-- Cleaned-up inversion for a successful bulk-string parse on a buffer of
physically realizable size: the wrap-arounds vanish. -/
theorem parseBulkString_ok {buf : List Nat} {v : RESPData} {c : Nat}
    (hbig : buf.length + 2 < 2 ^ 63)
    (h : parseBulkString buf = .ok v c) :
    ∃ L cl, parseIntLine buf = .ok L cl ∧ cl ≤ buf.length ∧
      ((L < 0 ∧ v = .bulk none ∧ c = cl) ∨
       (0 ≤ L ∧ c = cl + L.toNat + 2 ∧ c ≤ buf.length ∧
        v = .bulk (some ((buf.drop cl).take L.toNat)))) := by
  obtain ⟨L, cl, hil, hcase⟩ := parseBulkString_ok_raw h
  obtain ⟨e, hcl, hint, hceq⟩ := parseIntLine_ok hil
  have hclbound : cl ≤ buf.length := by
    have := CLRFIndex_bound hcl
    omega
  refine ⟨L, cl, hil, hclbound, ?_⟩
  rcases hcase with ⟨hneg, hv, hc⟩ | ⟨hpos, hincpl, hlo, hhi, hv, hc⟩
  · exact Or.inl ⟨hneg, hv, hc⟩
  · right
    have hrange := goParseInt64_range hint
    have hlen : (cl : Int) ≤ (buf.length : Int) := by exact_mod_cast hclbound
    have hbig' : (buf.length : Int) + 2 < 2 ^ 63 := by exact_mod_cast hbig
    -- `wrap64 (cl + L)` is at least `cl ≥ 0`, hence no wrap happened there
    have hwrap : wrap64 ((cl : Int) + L) = (cl : Int) + L := by
      rcases wrap64_cases (x := (cl : Int) + L) (by omega) (by omega) with ⟨_, hw⟩ | ⟨_, hw⟩
      · exact hw
      · exfalso; rw [hw] at hlo; omega
    rw [hwrap] at hlo hhi hv hc
    -- the incomplete-guard did not wrap either, so it bounds the consumed count
    have hwrap2 : wrap64 (L + (cl : Int) + 2) = L + (cl : Int) + 2 :=
      wrap64_eq_self (by omega) (by omega)
    rw [hwrap2] at hincpl
    have hcval : c = cl + L.toNat + 2 := by omega
    refine ⟨hpos, hcval, by omega, ?_⟩
    rw [hv]
    have : ((cl : Int) + L - (cl : Int)).toNat = L.toNat := by omega
    rw [this]


/-! ### Stability of the scalar frame parsers under truncation/extension -/

/-- A successful integer-line parse only looks at the first `cl` bytes:
truncating anywhere at or past `cl` and appending anything gives the same
result. -/
theorem parseIntLine_take_append {u : List Nat} {L : Int} {cl : Nat}
    (h : parseIntLine u = .ok L cl) {j : Nat} (hj : cl ≤ j) (w : List Nat) :
    parseIntLine (u.take j ++ w) = .ok L cl := by
  obtain ⟨e, hcl, hint, hc⟩ := parseIntLine_ok h
  subst hc
  have hbound := CLRFIndex_bound hcl
  have hcl' := CLRFIndex_take_append hcl hj w
  unfold parseIntLine
  rw [hcl']
  dsimp only
  have hdig : ((u.take j ++ w).take e).drop 1 = (u.take e).drop 1 := by
    rw [List.take_append_of_le_length (by simp; omega), List.take_take,
      Nat.min_eq_left (by omega)]
  rw [hdig, hint]

/-- Truncating strictly before the consumed count of a successful
integer-line parse yields `incomplete`. -/
theorem parseIntLine_take_none {u : List Nat} {L : Int} {cl : Nat}
    (h : parseIntLine u = .ok L cl) {j : Nat} (hj : j < cl) :
    parseIntLine (u.take j) = .incomplete := by
  obtain ⟨e, hcl, _, hc⟩ := parseIntLine_ok h
  subst hc
  unfold parseIntLine
  rw [CLRFIndex_take_none hcl (by omega)]

/-- `parseIntegerFrame` only looks at the bytes it consumes. -/
theorem parseIntegerFrame_take_append {u : List Nat} {v : RESPData} {c : Nat}
    (h : parseIntegerFrame u = .ok v c) {j : Nat} (hj : c ≤ j) (w : List Nat) :
    parseIntegerFrame (u.take j ++ w) = .ok v c := by
  unfold parseIntegerFrame at h ⊢
  cases hil : parseIntLine u with
  | ok L cl =>
    rw [hil] at h
    dsimp only at h
    cases h
    rw [parseIntLine_take_append hil hj w]
  | incomplete => rw [hil] at h; cases h
  | malformed => rw [hil] at h; cases h

/-- A strict prefix of a parsed integer frame is incomplete. -/
theorem parseIntegerFrame_take_none {u : List Nat} {v : RESPData} {c : Nat}
    (h : parseIntegerFrame u = .ok v c) {j : Nat} (hj : j < c) :
    parseIntegerFrame (u.take j) = .incomplete := by
  unfold parseIntegerFrame at h ⊢
  cases hil : parseIntLine u with
  | ok L cl =>
    rw [hil] at h
    dsimp only at h
    cases h
    rw [parseIntLine_take_none hil hj]
  | incomplete => rw [hil] at h; cases h
  | malformed => rw [hil] at h; cases h

/-- `parseSimpleString` only looks at the bytes it consumes. -/
theorem parseSimpleString_take_append {u : List Nat} {v : RESPData} {c : Nat}
    (h : parseSimpleString u = .ok v c) {j : Nat} (hj : c ≤ j) (w : List Nat) :
    parseSimpleString (u.take j ++ w) = .ok v c := by
  obtain ⟨e, hcl, hv, hc⟩ := parseSimpleString_ok h
  subst hv; subst hc
  have hbound := CLRFIndex_bound hcl
  unfold parseSimpleString
  rw [CLRFIndex_take_append hcl hj w]
  dsimp only
  have hdig : ((u.take j ++ w).take e).drop 1 = (u.take e).drop 1 := by
    rw [List.take_append_of_le_length (by simp; omega), List.take_take,
      Nat.min_eq_left (by omega)]
  rw [hdig]

/-- A strict prefix of a parsed simple string is incomplete. -/
theorem parseSimpleString_take_none {u : List Nat} {v : RESPData} {c : Nat}
    (h : parseSimpleString u = .ok v c) {j : Nat} (hj : j < c) :
    parseSimpleString (u.take j) = .incomplete := by
  obtain ⟨e, hcl, _, hc⟩ := parseSimpleString_ok h
  subst hc
  unfold parseSimpleString
  rw [CLRFIndex_take_none hcl (by omega)]

/-- `parseBulkString` only looks at the bytes it consumes (on physically
realizable buffers). -/
theorem parseBulkString_take_append {u : List Nat} {v : RESPData} {c : Nat}
    (hbig : u.length + 2 < 2 ^ 63)
    (h : parseBulkString u = .ok v c) {j : Nat} (hj : c ≤ j) (w : List Nat) :
    parseBulkString (u.take j ++ w) = .ok v c := by
  obtain ⟨L, cl, hil, hclbound, hcase⟩ := parseBulkString_ok hbig h
  have hil' := parseIntLine_take_append hil (j := j) (by
    rcases hcase with ⟨_, _, hc⟩ | ⟨_, hc, _, _⟩ <;> omega) w
  unfold parseBulkString
  rw [hil']
  dsimp only
  rcases hcase with ⟨hneg, hv, hc⟩ | ⟨hpos, hc, hcle, hv⟩
  · rw [if_pos hneg, hv, hc]
  · have hrange := goParseInt64_range ((parseIntLine_ok hil).choose_spec.2.1)
    rw [if_neg (by omega)]
    have hlen' : c ≤ (u.take j ++ w).length := by
      simp only [List.length_append, List.length_take]
      omega
    have hw2 : wrap64 (L + (cl : Int) + 2) = L + (cl : Int) + 2 :=
      wrap64_eq_self (by omega) (by
        have : (cl : Int) + L + 2 ≤ (u.length : Int) := by exact_mod_cast by omega
        omega)
    have hw1 : wrap64 ((cl : Int) + L) = (cl : Int) + L :=
      wrap64_eq_self (by omega) (by
        have : (cl : Int) + L + 2 ≤ (u.length : Int) := by exact_mod_cast by omega
        omega)
    rw [hw2, hw1]
    have hlen'' : (c : Int) ≤ ((u.take j ++ w).length : Int) := by exact_mod_cast hlen'
    rw [if_neg (by omega), if_pos (by constructor <;> omega)]
    rw [hv, hc]
    have hdata : ((u.take j ++ w).drop cl).take ((cl : Int) + L - (cl : Int)).toNat
        = (u.drop cl).take L.toNat := by
      have htn : ((cl : Int) + L - (cl : Int)).toNat = L.toNat := by omega
      rw [htn]
      have h1 : (u.take j ++ w).drop cl = (u.take j).drop cl ++ w := by
        rw [List.drop_append_of_le_length (by simp; omega)]
      rw [h1]
      have h2 : ((u.take j).drop cl ++ w).take L.toNat
          = ((u.take j).drop cl).take L.toNat := by
        apply List.take_append_of_le_length
        simp only [List.length_drop, List.length_take]
        omega
      rw [h2]
      have h3 : (u.take j).drop cl = (u.drop cl).take (j - cl) := by
        rw [List.drop_take]
      rw [h3, List.take_take, Nat.min_eq_left (by omega)]
    rw [hdata]
    congr 1
    omega

/-- A strict prefix of a parsed bulk string is incomplete (on physically
realizable buffers). -/
theorem parseBulkString_take_none {u : List Nat} {v : RESPData} {c : Nat}
    (hbig : u.length + 2 < 2 ^ 63)
    (h : parseBulkString u = .ok v c) {j : Nat} (hj : j < c) :
    parseBulkString (u.take j) = .incomplete := by
  obtain ⟨L, cl, hil, hclbound, hcase⟩ := parseBulkString_ok hbig h
  rcases Nat.lt_or_ge j cl with hjcl | hjcl
  · unfold parseBulkString
    rw [parseIntLine_take_none hil hjcl]
  · have hil' : parseIntLine (u.take j) = .ok L cl := by
      have := parseIntLine_take_append hil hjcl []
      simpa using this
    unfold parseBulkString
    rw [hil']
    dsimp only
    rcases hcase with ⟨hneg, _, hc⟩ | ⟨hpos, hc, hcle, _⟩
    · omega
    · have hrange := goParseInt64_range ((parseIntLine_ok hil).choose_spec.2.1)
      rw [if_neg (by omega)]
      have hw2 : wrap64 (L + (cl : Int) + 2) = L + (cl : Int) + 2 :=
        wrap64_eq_self (by omega) (by
          have : (cl : Int) + L + 2 ≤ (u.length : Int) := by exact_mod_cast by omega
          omega)
      rw [hw2]
      have hjlen : (u.take j).length = j := by
        simp only [List.length_take]
        omega
      rw [if_pos (by rw [hjlen]; exact_mod_cast by omega)]

/-- If `x` contains no CR byte, the first CRLF of `x ++ [13, 10] ++ r` is
exactly at `x.length`. -/
theorem CLRFIndex_append_of_no_cr {x : List Nat} (hx : ∀ a ∈ x, a ≠ 13)
    (r : List Nat) : CLRFIndex (x ++ 13 :: 10 :: r) = some x.length := by
  induction x with
  | nil => rw [List.nil_append, CLRFIndex]; simp
  | cons a x ih =>
      simp only [List.cons_append]
      rw [CLRFIndex_cons]
      have ha : a ≠ 13 := hx a (by simp)
      have hne : ¬(a = 13 ∧ (x ++ 13 :: 10 :: r).head? = some 10) := by
        intro ⟨h13, _⟩; exact ha h13
      rw [if_neg hne, ih (fun b hb => hx b (by simp [hb]))]
      simp

/-! ### Global invariants of the frame parser -/

theorem parseElems_zero (d : List Nat) : parseElems 0 d = .ok [] 0 := rfl

theorem parseElems_succ (n : Nat) (d : List Nat) :
    parseElems (n + 1) d =
      match parseSingleValue d with
      | .ok v c =>
          match parseElems n (d.drop c) with
          | .ok elems tc => .ok (v :: elems) (c + tc)
          | .incomplete => .incomplete
          | .malformed => .malformed
          | .panicked => .panicked
      | .incomplete => .incomplete
      | .malformed => .malformed
      | .panicked => .panicked := rfl

/-- Helper: the cons shape of a truncated-and-extended cons buffer. -/
theorem take_cons_append {t : Nat} (rest : List Nat) {j : Nat} (hj : 1 ≤ j)
    (w : List Nat) : (t :: rest).take j ++ w = t :: (rest.take (j - 1) ++ w) := by
  cases j with
  | zero => omega
  | succ j' => simp

/-- Every successful frame parse consumes at least one byte. -/
theorem parse_ok_pos {buf : List Nat} {v : RESPData} {c : Nat}
    (h : parseSingleValue buf = .ok v c) : 1 ≤ c := by
  rw [parseSingleValue_eq] at h
  cases buf with
  | nil => cases h
  | cons t rest =>
    dsimp only at h
    split_ifs at h with h58 h36 h43 h42
    · obtain ⟨n, e, _, _, _, hc⟩ := parseIntegerFrame_ok h
      omega
    · obtain ⟨L, cl, hil, hcase⟩ := parseBulkString_ok_raw h
      obtain ⟨e, _, _, hcl⟩ := parseIntLine_ok hil
      rcases hcase with ⟨_, _, hc⟩ | ⟨_, _, _, _, _, hc⟩ <;> omega
    · obtain ⟨e, _, _, hc⟩ := parseSimpleString_ok h
      omega
    · cases hcl : CLRFIndex (t :: rest) with
      | none => rw [hcl] at h; cases h
      | some e =>
        rw [hcl] at h
        dsimp only at h
        cases hint : goParseInt64 (((t :: rest).take e).drop 1) with
        | none => rw [hint] at h; cases h
        | some L =>
          rw [hint] at h
          dsimp only at h
          split_ifs at h with hneg
          · cases h; omega
          · cases hel : parseElems L.toNat ((t :: rest).drop (e + 2)) with
            | ok elems tc => rw [hel] at h; dsimp only at h; cases h; omega
            | incomplete => rw [hel] at h; cases h
            | malformed => rw [hel] at h; cases h
            | panicked => rw [hel] at h; cases h

/-- A successful frame parse strictly shrinks the unread window. -/
theorem parse_ok_drop_lt {buf : List Nat} {v : RESPData} {c : Nat}
    (h : parseSingleValue buf = .ok v c) : (buf.drop c).length < buf.length := by
  have hpos := parse_ok_pos h
  cases buf with
  | nil => cases h
  | cons t rest => simp only [List.length_drop, List.length_cons]; omega

/-- Joint consumed-count bound for the frame parser and the array-element
loop, by strong induction on the buffer length. -/
theorem parse_ok_le_aux (len : Nat) :
    (∀ (buf : List Nat) (v : RESPData) (c : Nat), buf.length ≤ len →
       buf.length + 2 < 2 ^ 63 → parseSingleValue buf = .ok v c →
       c ≤ buf.length) ∧
    (∀ (n : Nat) (d : List Nat) (l : List RESPData) (tc : Nat), d.length ≤ len →
       d.length + 2 < 2 ^ 63 → parseElems n d = .ok l tc → tc ≤ d.length) := by
  induction len using Nat.strong_induction_on with
  | _ len ih =>
    have hsingle : ∀ (buf : List Nat) (v : RESPData) (c : Nat), buf.length ≤ len →
        buf.length + 2 < 2 ^ 63 → parseSingleValue buf = .ok v c → c ≤ buf.length := by
      intro buf v c hlen hbig h
      rw [parseSingleValue_eq] at h
      cases buf with
      | nil => cases h
      | cons t rest =>
        dsimp only at h
        split_ifs at h with h58 h36 h43 h42
        · obtain ⟨n, e, hcl, _, _, hc⟩ := parseIntegerFrame_ok h
          have := CLRFIndex_bound hcl
          omega
        · obtain ⟨L, cl, hil, hclb, hcase⟩ := parseBulkString_ok hbig h
          rcases hcase with ⟨_, _, hc⟩ | ⟨_, _, hcle, _⟩ <;> omega
        · obtain ⟨e, hcl, _, hc⟩ := parseSimpleString_ok h
          have := CLRFIndex_bound hcl
          omega
        · cases hcl : CLRFIndex (t :: rest) with
          | none => rw [hcl] at h; cases h
          | some e =>
            rw [hcl] at h
            dsimp only at h
            cases hint : goParseInt64 (((t :: rest).take e).drop 1) with
            | none => rw [hint] at h; cases h
            | some L =>
              rw [hint] at h
              dsimp only at h
              have hb : e + 2 ≤ rest.length + 1 := by
                have := CLRFIndex_bound hcl
                simpa using this
              have hlen' : rest.length + 1 ≤ len := by simpa using hlen
              have hbig' : rest.length + 1 + 2 < 2 ^ 63 := by simpa using hbig
              split_ifs at h with hneg
              · cases h
                simp only [List.length_cons]
                omega
              · cases hel : parseElems L.toNat ((t :: rest).drop (e + 2)) with
                | ok elems tc =>
                  rw [hel] at h
                  dsimp only at h
                  cases h
                  have hm : ((t :: rest).drop (e + 2)).length = rest.length + 1 - (e + 2) := by
                    simp [List.length_drop]
                  have htc := (ih ((t :: rest).drop (e + 2)).length
                      (by rw [hm]; omega)).2
                    L.toNat ((t :: rest).drop (e + 2)) elems tc le_rfl
                    (by rw [hm]; omega) hel
                  rw [hm] at htc
                  simp only [List.length_cons]
                  omega
                | incomplete => rw [hel] at h; cases h
                | malformed => rw [hel] at h; cases h
                | panicked => rw [hel] at h; cases h
    refine ⟨hsingle, ?_⟩
    intro n
    induction n with
    | zero =>
      intro d l tc _ _ h
      rw [parseElems_zero] at h
      cases h
      omega
    | succ n ihn =>
      intro d l tc hlen hbig h
      rw [parseElems_succ] at h
      cases hv1 : parseSingleValue d with
      | ok v1 c1 =>
        rw [hv1] at h
        dsimp only at h
        cases hel : parseElems n (d.drop c1) with
        | ok l' tc' =>
          rw [hel] at h
          dsimp only at h
          cases h
          have hc1 := hsingle d v1 c1 hlen hbig hv1
          have htc' := ihn (d.drop c1) l' tc'
            (by simp only [List.length_drop]; omega)
            (by simp only [List.length_drop]; omega) hel
          simp only [List.length_drop] at htc'
          omega
        | incomplete => rw [hel] at h; cases h
        | malformed => rw [hel] at h; cases h
        | panicked => rw [hel] at h; cases h
      | incomplete => rw [hv1] at h; cases h
      | malformed => rw [hv1] at h; cases h
      | panicked => rw [hv1] at h; cases h

/-- A successful frame parse consumes at most the buffer. -/
theorem parse_ok_le {buf : List Nat} {v : RESPData} {c : Nat}
    (hbig : buf.length + 2 < 2 ^ 63) (h : parseSingleValue buf = .ok v c) :
    c ≤ buf.length :=
  (parse_ok_le_aux buf.length).1 buf v c le_rfl hbig h

/-- The array-element loop consumes at most the buffer. -/
theorem parseElems_ok_le {n : Nat} {d : List Nat} {l : List RESPData} {tc : Nat}
    (hbig : d.length + 2 < 2 ^ 63) (h : parseElems n d = .ok l tc) :
    tc ≤ d.length :=
  (parse_ok_le_aux d.length).2 n d l tc le_rfl hbig h

/-- Helper: the cons shape of a truncated cons buffer. -/
theorem take_cons_of_pos {t : Nat} (rest : List Nat) {j : Nat} (hj : 1 ≤ j) :
    (t :: rest).take j = t :: rest.take (j - 1) := by
  cases j with
  | zero => omega
  | succ j' => simp

/-- Joint extension/restriction stability: a successful parse only looks at
the bytes it consumes, so truncating anywhere at or past the consumed count
and appending arbitrary bytes yields the same result. -/
theorem parse_take_append_aux (len : Nat) :
    (∀ (buf : List Nat) (v : RESPData) (c : Nat), buf.length ≤ len →
       buf.length + 2 < 2 ^ 63 → parseSingleValue buf = .ok v c →
       ∀ (j : Nat) (w : List Nat), c ≤ j →
       parseSingleValue (buf.take j ++ w) = .ok v c) ∧
    (∀ (n : Nat) (d : List Nat) (l : List RESPData) (tc : Nat), d.length ≤ len →
       d.length + 2 < 2 ^ 63 → parseElems n d = .ok l tc →
       ∀ (j : Nat) (w : List Nat), tc ≤ j →
       parseElems n (d.take j ++ w) = .ok l tc) := by
  induction len using Nat.strong_induction_on with
  | _ len ih =>
    have hsingle : ∀ (buf : List Nat) (v : RESPData) (c : Nat), buf.length ≤ len →
        buf.length + 2 < 2 ^ 63 → parseSingleValue buf = .ok v c →
        ∀ (j : Nat) (w : List Nat), c ≤ j →
        parseSingleValue (buf.take j ++ w) = .ok v c := by
      intro buf v c hlen hbig h j w hj
      have hpos := parse_ok_pos h
      rw [parseSingleValue_eq] at h
      cases buf with
      | nil => cases h
      | cons t rest =>
        dsimp only at h
        rw [take_cons_append rest (by omega) w, parseSingleValue_eq]
        dsimp only
        split_ifs at h with h58 h36 h43 h42
        · rw [if_pos h58]
          have hres := parseIntegerFrame_take_append h hj w
          rw [take_cons_append rest (by omega) w] at hres
          exact hres
        · rw [if_neg h58, if_pos h36]
          have hres := parseBulkString_take_append hbig h hj w
          rw [take_cons_append rest (by omega) w] at hres
          exact hres
        · rw [if_neg h58, if_neg h36, if_pos h43]
          have hres := parseSimpleString_take_append h hj w
          rw [take_cons_append rest (by omega) w] at hres
          exact hres
        · rw [if_neg h58, if_neg h36, if_neg h43, if_pos h42]
          cases hcl : CLRFIndex (t :: rest) with
          | none => rw [hcl] at h; cases h
          | some e =>
            rw [hcl] at h
            dsimp only at h
            cases hint : goParseInt64 (((t :: rest).take e).drop 1) with
            | none => rw [hint] at h; cases h
            | some L =>
              rw [hint] at h
              dsimp only at h
              have hb : e + 2 ≤ rest.length + 1 := by
                have := CLRFIndex_bound hcl
                simpa using this
              -- the consumed count is at least the length line
              have hce : e + 2 ≤ c := by
                split_ifs at h with hneg
                · cases h; omega
                · cases hel : parseElems L.toNat ((t :: rest).drop (e + 2)) with
                  | ok elems tc => rw [hel] at h; dsimp only at h; cases h; omega
                  | incomplete => rw [hel] at h; cases h
                  | malformed => rw [hel] at h; cases h
                  | panicked => rw [hel] at h; cases h
              have hclG : CLRFIndex (t :: (rest.take (j - 1) ++ w)) = some e := by
                rw [← take_cons_append rest (by omega) w]
                exact CLRFIndex_take_append hcl (by omega) w
              have hdigG : ((t :: (rest.take (j - 1) ++ w)).take e).drop 1
                  = ((t :: rest).take e).drop 1 := by
                rw [← take_cons_append rest (by omega) w,
                  List.take_append_of_le_length (by simp [List.length_take]; omega),
                  List.take_take, Nat.min_eq_left (by omega)]
              rw [hclG]
              dsimp only
              rw [hdigG, hint]
              dsimp only
              split_ifs at h ⊢ with hneg
              · exact h
              · cases hel : parseElems L.toNat ((t :: rest).drop (e + 2)) with
                | ok elems tc =>
                  rw [hel] at h
                  dsimp only at h
                  have hm : ((t :: rest).drop (e + 2)).length = rest.length + 1 - (e + 2) := by
                    simp [List.length_drop]
                  have hdropG : (t :: (rest.take (j - 1) ++ w)).drop (e + 2)
                      = ((t :: rest).drop (e + 2)).take (j - (e + 2)) ++ w := by
                    rw [← take_cons_append rest (by omega) w,
                      List.drop_append_of_le_length (by simp [List.length_take]; omega),
                      List.drop_take]
                  rw [hdropG]
                  have hel' := (ih ((t :: rest).drop (e + 2)).length
                      (by rw [hm]; simp only [List.length_cons] at hlen; omega)).2
                    L.toNat ((t :: rest).drop (e + 2)) elems tc le_rfl
                    (by rw [hm]; simp only [List.length_cons] at hbig; omega) hel
                    (j - (e + 2)) w (by cases h; omega)
                  rw [hel']
                  exact h
                | incomplete => rw [hel] at h; cases h
                | malformed => rw [hel] at h; cases h
                | panicked => rw [hel] at h; cases h
    refine ⟨hsingle, ?_⟩
    intro n
    induction n with
    | zero =>
      intro d l tc _ _ h j w _
      rw [parseElems_zero] at h
      cases h
      rw [parseElems_zero]
    | succ n ihn =>
      intro d l tc hlen hbig h j w hj
      rw [parseElems_succ] at h
      cases hv1 : parseSingleValue d with
      | ok v1 c1 =>
        rw [hv1] at h
        dsimp only at h
        cases hel : parseElems n (d.drop c1) with
        | ok l' tc' =>
          rw [hel] at h
          dsimp only at h
          cases h
          have hc1le := parse_ok_le hbig hv1
          have h1 : parseSingleValue (d.take j ++ w) = .ok v1 c1 :=
            hsingle d v1 c1 hlen hbig hv1 j w (by omega)
          rw [parseElems_succ, h1]
          dsimp only
          have h2 : (d.take j ++ w).drop c1 = (d.drop c1).take (j - c1) ++ w := by
            rw [List.drop_append_of_le_length (by simp [List.length_take]; omega),
              List.drop_take]
          rw [h2]
          have h3 := ihn (d.drop c1) l' tc'
            (by simp only [List.length_drop]; omega)
            (by simp only [List.length_drop]; omega) hel (j - c1) w (by omega)
          rw [h3]
        | incomplete => rw [hel] at h; cases h
        | malformed => rw [hel] at h; cases h
        | panicked => rw [hel] at h; cases h
      | incomplete => rw [hv1] at h; cases h
      | malformed => rw [hv1] at h; cases h
      | panicked => rw [hv1] at h; cases h

/-- A successful frame parse is stable under truncation at or past the
consumed count followed by arbitrary extension. -/
theorem parse_take_append {buf : List Nat} {v : RESPData} {c : Nat}
    (hbig : buf.length + 2 < 2 ^ 63) (h : parseSingleValue buf = .ok v c)
    {j : Nat} (hj : c ≤ j) (w : List Nat) :
    parseSingleValue (buf.take j ++ w) = .ok v c :=
  (parse_take_append_aux buf.length).1 buf v c le_rfl hbig h j w hj

/-- Pure extension: appending bytes after a complete frame does not change
its parse. -/
theorem parse_append {buf : List Nat} {v : RESPData} {c : Nat}
    (hbig : buf.length + 2 < 2 ^ 63) (h : parseSingleValue buf = .ok v c)
    (w : List Nat) : parseSingleValue (buf ++ w) = .ok v c := by
  have hle := parse_ok_le hbig h
  have := parse_take_append hbig h (j := buf.length) hle w
  rwa [List.take_length] at this

/-- Pure restriction: truncating at or past the consumed count does not
change the parse. -/
theorem parse_take {buf : List Nat} {v : RESPData} {c : Nat}
    (hbig : buf.length + 2 < 2 ^ 63) (h : parseSingleValue buf = .ok v c)
    {j : Nat} (hj : c ≤ j) : parseSingleValue (buf.take j) = .ok v c := by
  have := parse_take_append hbig h hj []
  rwa [List.append_nil] at this

/-- Joint prefix-incompleteness: truncating a successfully parsed frame
strictly before its consumed count yields `incomplete` (never `malformed`,
never a shorter parse). -/
theorem parse_take_none_aux (len : Nat) :
    (∀ (buf : List Nat) (v : RESPData) (c : Nat), buf.length ≤ len →
       buf.length + 2 < 2 ^ 63 → parseSingleValue buf = .ok v c →
       ∀ j : Nat, j < c → parseSingleValue (buf.take j) = .incomplete) ∧
    (∀ (n : Nat) (d : List Nat) (l : List RESPData) (tc : Nat), d.length ≤ len →
       d.length + 2 < 2 ^ 63 → parseElems n d = .ok l tc →
       ∀ j : Nat, j < tc → parseElems n (d.take j) = .incomplete) := by
  induction len using Nat.strong_induction_on with
  | _ len ih =>
    have hsingle : ∀ (buf : List Nat) (v : RESPData) (c : Nat), buf.length ≤ len →
        buf.length + 2 < 2 ^ 63 → parseSingleValue buf = .ok v c →
        ∀ j : Nat, j < c → parseSingleValue (buf.take j) = .incomplete := by
      intro buf v c hlen hbig h j hj
      rw [parseSingleValue_eq] at h
      cases buf with
      | nil => cases h
      | cons t rest =>
        dsimp only at h
        cases Nat.eq_zero_or_pos j with
        | inl hj0 => subst hj0; rfl
        | inr hjpos =>
          rw [take_cons_of_pos rest (by omega), parseSingleValue_eq]
          dsimp only
          split_ifs at h with h58 h36 h43 h42
          · rw [if_pos h58]
            have hres := parseIntegerFrame_take_none h hj
            rw [take_cons_of_pos rest (by omega)] at hres
            exact hres
          · rw [if_neg h58, if_pos h36]
            have hres := parseBulkString_take_none hbig h hj
            rw [take_cons_of_pos rest (by omega)] at hres
            exact hres
          · rw [if_neg h58, if_neg h36, if_pos h43]
            have hres := parseSimpleString_take_none h hj
            rw [take_cons_of_pos rest (by omega)] at hres
            exact hres
          · rw [if_neg h58, if_neg h36, if_neg h43, if_pos h42]
            cases hcl : CLRFIndex (t :: rest) with
            | none => rw [hcl] at h; cases h
            | some e =>
              rw [hcl] at h
              dsimp only at h
              cases hint : goParseInt64 (((t :: rest).take e).drop 1) with
              | none => rw [hint] at h; cases h
              | some L =>
                rw [hint] at h
                dsimp only at h
                have hb : e + 2 ≤ rest.length + 1 := by
                  have := CLRFIndex_bound hcl
                  simpa using this
                cases Nat.lt_or_ge j (e + 2) with
                | inl hje =>
                  have hclN : CLRFIndex ((t :: rest).take j) = none :=
                    CLRFIndex_take_none hcl (by omega)
                  rw [take_cons_of_pos rest (by omega)] at hclN
                  rw [hclN]
                | inr hje =>
                  have hclG : CLRFIndex ((t :: rest).take j) = some e := by
                    have := CLRFIndex_take_append hcl (j := j) (by omega) []
                    rwa [List.append_nil] at this
                  rw [take_cons_of_pos rest (by omega)] at hclG
                  rw [hclG]
                  dsimp only
                  have hdigG : ((t :: (rest.take (j - 1))).take e).drop 1
                      = ((t :: rest).take e).drop 1 := by
                    rw [← take_cons_of_pos rest (by omega),
                      List.take_take, Nat.min_eq_left (by omega)]
                  rw [hdigG, hint]
                  dsimp only
                  split_ifs at h ⊢ with hneg
                  · cases h; omega
                  · cases hel : parseElems L.toNat ((t :: rest).drop (e + 2)) with
                    | ok elems tc =>
                      rw [hel] at h
                      dsimp only at h
                      cases h
                      have hm : ((t :: rest).drop (e + 2)).length
                          = rest.length + 1 - (e + 2) := by
                        simp [List.length_drop]
                      have hdropG : (t :: (rest.take (j - 1))).drop (e + 2)
                          = ((t :: rest).drop (e + 2)).take (j - (e + 2)) := by
                        rw [← take_cons_of_pos rest (by omega), List.drop_take]
                      rw [hdropG]
                      have hel' := (ih ((t :: rest).drop (e + 2)).length
                          (by rw [hm]; simp only [List.length_cons] at hlen; omega)).2
                        L.toNat ((t :: rest).drop (e + 2)) elems tc le_rfl
                        (by rw [hm]; simp only [List.length_cons] at hbig; omega) hel
                        (j - (e + 2)) (by omega)
                      rw [hel']
                    | incomplete => rw [hel] at h; cases h
                    | malformed => rw [hel] at h; cases h
                    | panicked => rw [hel] at h; cases h
    refine ⟨hsingle, ?_⟩
    intro n
    induction n with
    | zero =>
      intro d l tc _ _ h j hj
      rw [parseElems_zero] at h
      cases h
      omega
    | succ n ihn =>
      intro d l tc hlen hbig h j hj
      rw [parseElems_succ] at h
      cases hv1 : parseSingleValue d with
      | ok v1 c1 =>
        rw [hv1] at h
        dsimp only at h
        cases hel : parseElems n (d.drop c1) with
        | ok l' tc' =>
          rw [hel] at h
          dsimp only at h
          cases h
          have hc1le := parse_ok_le hbig hv1
          rw [parseElems_succ]
          cases Nat.lt_or_ge j c1 with
          | inl hjc1 =>
            have h1 := hsingle d v1 c1 hlen hbig hv1 j hjc1
            rw [h1]
          | inr hjc1 =>
            have h1 : parseSingleValue (d.take j) = .ok v1 c1 := by
              have := (parse_take_append_aux d.length).1 d v1 c1 le_rfl hbig hv1 j [] hjc1
              rwa [List.append_nil] at this
            rw [h1]
            dsimp only
            have h2 : (d.take j).drop c1 = (d.drop c1).take (j - c1) := by
              rw [List.drop_take]
            rw [h2]
            have h3 := ihn (d.drop c1) l' tc'
              (by simp only [List.length_drop]; omega)
              (by simp only [List.length_drop]; omega) hel (j - c1) (by omega)
            rw [h3]
        | incomplete => rw [hel] at h; cases h
        | malformed => rw [hel] at h; cases h
        | panicked => rw [hel] at h; cases h
      | incomplete => rw [hv1] at h; cases h
      | malformed => rw [hv1] at h; cases h
      | panicked => rw [hv1] at h; cases h

/-- Truncating a successfully parsed frame strictly before its consumed
count yields `incomplete`. -/
theorem parse_take_none {buf : List Nat} {v : RESPData} {c : Nat}
    (hbig : buf.length + 2 < 2 ^ 63) (h : parseSingleValue buf = .ok v c)
    {j : Nat} (hj : j < c) : parseSingleValue (buf.take j) = .incomplete :=
  (parse_take_none_aux buf.length).1 buf v c le_rfl hbig h j hj

/-! ### Commands (`ParseCommand`, resp.go) -/

/-- Embeds `RESPCommandType` (resp.go): `SET`, `GET`, `ECHO`. -/
inductive RESPCommandType where
  | SET
  | GET
  | ECHO
  deriving DecidableEq

/-- Embeds `RESPCommand` (resp.go).  The Go field `Type` is a reserved word
in Lean and is called `cmdType` here; `Args` keeps its name. -/
structure RESPCommand where
  cmdType : RESPCommandType
  Args : List RESPData

/-- ASCII upper-casing of a byte string: the effect of `strings.ToUpper` on
the ASCII strings that can name a supported command (Unicode case mapping of
non-ASCII sequences is not modelled). -/
def toUpperASCII (s : List Nat) : List Nat :=
  s.map (fun b => if 97 ≤ b ∧ b ≤ 122 then b - 32 else b)

/-- Errors raised by `ParseCommand` (resp.go): "command array length 0",
unknown first-element type, "unknown command". -/
inductive CmdErr where
  | emptyArray
  | badNameType
  | unknownCmd
  deriving DecidableEq

/-- Name matching of `ParseCommand`: upper-case, then compare against
`"SET"`, `"GET"`, `"ECHO"`; remaining array elements become the
argument vector. -/
def parseCommandName (name : List Nat) (rest : List RESPData) :
    Except CmdErr RESPCommand :=
  let cn := toUpperASCII name
  if cn = [83, 69, 84] then .ok ⟨.SET, rest⟩
  else if cn = [71, 69, 84] then .ok ⟨.GET, rest⟩
  else if cn = [69, 67, 72, 79] then .ok ⟨.ECHO, rest⟩
  else .error .unknownCmd

/-- Embeds `ParseCommand` (resp.go): reject an empty command array (Go
`len(nil) = 0`, so the null array is equally empty), read the command name
from the first element (a simple or bulk string; Go `string(nil)` is `""`),
and match it. -/
def ParseCommand (arr : Option (List RESPData)) : Except CmdErr RESPCommand :=
  match arr.getD [] with
  | [] => .error .emptyArray
  | firstArg :: rest =>
      match firstArg with
      | .simple s => parseCommandName s rest
      | .bulk d => parseCommandName (d.getD []) rest
      | _ => .error .badNameType

/-- Embeds `ExtractString` (resp.go): Go `string(v.data)` maps a nil byte
slice to the empty string; integers and arrays are errors (`none`). -/
def ExtractString (data : RESPData) : Option (List Nat) :=
  match data with
  | .simple s => some s
  | .bulk d => some (d.getD [])
  | _ => none

/-- Embeds `ExtractByteSlice` (resp.go): a bulk payload passes through
unchanged (a null bulk string stays a nil slice, the inner `none`); a
simple string converts to its bytes; integers and arrays are errors. -/
def ExtractByteSlice (data : RESPData) : Option (Option (List Nat)) :=
  match data with
  | .simple s => some (some s)
  | .bulk d => some d
  | _ => none

/-! ### Batch parsing (`RESPReader.parseBufferCommands`, resp.go) -/

/-- Fatal batch error, as wrapped by `parseBufferCommands`: a malformed
frame, a frame that is not an array, or a `ParseCommand` failure. -/
inductive BatchErr where
  | malformedFrame
  | notArray
  | cmdError (e : CmdErr)
  deriving DecidableEq

inductive BatchStatus where
  | ok
  | err (e : BatchErr)
  | panicked
  deriving DecidableEq

/-- One invocation of the batch loop: the commands parsed, the total bytes
consumed (`readIndex` advance, which includes the frame of a command that
failed normalization, as the Go code advances `readIndex` before the
array cast), and how the loop ended. -/
structure BatchOut where
  cmds : List RESPCommand
  consumed : Nat
  status : BatchStatus

/-- Fuel-indexed body of `parseBufferCommands` (resp.go): parse frames from
the front of the window; stop cleanly on an incomplete frame (the Go loop
also breaks first when the window is empty, which coincides with
`parseSingleValue [] = incomplete`); a parse error, a non-array frame, or a
`ParseCommand` error ends the batch with an error, returning the commands
accumulated so far. -/
def parseBatchFuel : Nat → List Nat → BatchOut
  | 0, _ => ⟨[], 0, .ok⟩
  | f + 1, w =>
      match parseSingleValue w with
      | .incomplete => ⟨[], 0, .ok⟩
      | .malformed => ⟨[], 0, .err .malformedFrame⟩
      | .panicked => ⟨[], 0, .panicked⟩
      | .ok v c =>
          match v with
          | .array d =>
              match ParseCommand d with
              | .error e => ⟨[], c, .err (.cmdError e)⟩
              | .ok cmd =>
                  let r := parseBatchFuel f (w.drop c)
                  ⟨cmd :: r.cmds, c + r.consumed, r.status⟩
          | _ => ⟨[], c, .err .notArray⟩

/-- Embeds `parseBufferCommands` (resp.go) as a pure function of the unread
window.  `w.length + 1` fuel always suffices because every parsed frame
consumes at least one byte. -/
def parseBatch (w : List Nat) : BatchOut := parseBatchFuel (w.length + 1) w

theorem parseBatchFuel_mono_aux (len : Nat) :
    ∀ (w : List Nat) (F1 F2 : Nat), w.length ≤ len → w.length < F1 →
      w.length < F2 → parseBatchFuel F1 w = parseBatchFuel F2 w := by
  induction len using Nat.strong_induction_on with
  | _ len ih =>
    intro w F1 F2 hlen h1 h2
    match F1, h1 with
    | f1 + 1, h1 =>
    match F2, h2 with
    | f2 + 1, h2 =>
    rw [parseBatchFuel, parseBatchFuel]
    cases hres : parseSingleValue w with
    | ok v c =>
      dsimp only
      cases v with
      | array d =>
        dsimp only
        cases hpc : ParseCommand d with
        | error e => rfl
        | ok cmd =>
          dsimp only
          have hdlt := parse_ok_drop_lt hres
          rw [ih (w.drop c).length (by omega) (w.drop c) f1 f2 le_rfl (by omega) (by omega)]
      | simple s => rfl
      | bulk b => rfl
      | int n => rfl
    | incomplete => rfl
    | malformed => rfl
    | panicked => rfl

/-- The recursion equation of `parseBatch` exactly as the
`parseBufferCommands` loop runs. -/
theorem parseBatch_eq (w : List Nat) :
    parseBatch w =
      match parseSingleValue w with
      | .incomplete => ⟨[], 0, .ok⟩
      | .malformed => ⟨[], 0, .err .malformedFrame⟩
      | .panicked => ⟨[], 0, .panicked⟩
      | .ok v c =>
          match v with
          | .array d =>
              match ParseCommand d with
              | .error e => ⟨[], c, .err (.cmdError e)⟩
              | .ok cmd =>
                  let r := parseBatch (w.drop c)
                  ⟨cmd :: r.cmds, c + r.consumed, r.status⟩
          | _ => ⟨[], c, .err .notArray⟩ := by
  show parseBatchFuel (w.length + 1) w = _
  rw [parseBatchFuel]
  cases hres : parseSingleValue w with
  | ok v c =>
    dsimp only
    cases v with
    | array d =>
      dsimp only
      cases hpc : ParseCommand d with
      | error e => rfl
      | ok cmd =>
        dsimp only
        have hdlt := parse_ok_drop_lt hres
        rw [parseBatchFuel_mono_aux (w.drop c).length (w.drop c) w.length
          ((w.drop c).length + 1) le_rfl (by omega) (by omega)]
        rfl
    | simple s => rfl
    | bulk b => rfl
    | int n => rfl
  | incomplete => rfl
  | malformed => rfl
  | panicked => rfl

/-- Splitting a fully parsed command stream at any offset splits the batch:
the first part yields a prefix of the commands, consuming exactly the frames
that fit, and the stream from that point parses to the remaining commands. -/
theorem parseBatch_split_aux (len : Nat) :
    ∀ (s : List Nat) (cmds : List RESPCommand), s.length ≤ len →
      s.length + 2 < 2 ^ 63 → parseBatch s = ⟨cmds, s.length, .ok⟩ →
      ∀ i, i ≤ s.length → ∃ k ck, ck ≤ i ∧
        parseBatch (s.take i) = ⟨cmds.take k, ck, .ok⟩ ∧
        parseBatch (s.drop ck) = ⟨cmds.drop k, s.length - ck, .ok⟩ := by
  induction len using Nat.strong_induction_on with
  | _ len ih =>
    intro s cmds hlen hbig hfull i hi
    have horig := hfull
    rw [parseBatch_eq] at hfull
    cases hres : parseSingleValue s with
    | incomplete =>
      rw [hres] at hfull
      simp only [BatchOut.mk.injEq] at hfull
      obtain ⟨hc, hn, -⟩ := hfull
      have hs : s = [] := List.length_eq_zero.mp hn.symm
      subst hs
      have hc' := hc.symm
      subst hc'
      have hi0 : i = 0 := by simpa using hi
      subst hi0
      exact ⟨0, 0, le_rfl, by simpa using horig, by simpa using horig⟩
    | malformed => rw [hres] at hfull; simp at hfull
    | panicked => rw [hres] at hfull; simp at hfull
    | ok v c =>
      rw [hres] at hfull
      dsimp only at hfull
      cases v with
      | simple s' => simp at hfull
      | bulk b => simp at hfull
      | int n => simp at hfull
      | array d =>
        dsimp only at hfull
        cases hpc : ParseCommand d with
        | error e => rw [hpc] at hfull; simp at hfull
        | ok cmd =>
          rw [hpc] at hfull
          dsimp only at hfull
          cases hrdef : parseBatch (s.drop c) with
          | mk cmds' tc' st' =>
            rw [hrdef] at hfull
            simp only [BatchOut.mk.injEq] at hfull
            obtain ⟨hcmds, hcons, hstat⟩ := hfull
            have hc1 := parse_ok_pos hres
            have hcle := parse_ok_le hbig hres
            rcases Nat.lt_or_ge i c with hic | hic
            · refine ⟨0, 0, Nat.zero_le i, ?_, ?_⟩
              · rw [parseBatch_eq, parse_take_none hbig hres hic]
                simp
              · simpa using horig
            · have hdbig : (s.drop c).length + 2 < 2 ^ 63 := by
                simp only [List.length_drop]
                omega
              have hdfull : parseBatch (s.drop c) = ⟨cmds', (s.drop c).length, .ok⟩ := by
                rw [hrdef, hstat]
                have : tc' = (s.drop c).length := by
                  simp only [List.length_drop]
                  omega
                rw [this]
              obtain ⟨k', ck', hck', hT, hD⟩ :=
                ih (s.drop c).length
                  (by simp only [List.length_drop]; omega)
                  (s.drop c) cmds' le_rfl hdbig hdfull (i - c)
                  (by simp only [List.length_drop]; omega)
              refine ⟨k' + 1, c + ck', by omega, ?_, ?_⟩
              · rw [parseBatch_eq, parse_take hbig hres hic]
                dsimp only
                rw [hpc]
                dsimp only
                have hsplit : (s.take i).drop c = (s.drop c).take (i - c) :=
                  List.drop_take ..
                rw [hsplit, hT]
                rw [← hcmds]
                simp
              · have hdd : s.drop (c + ck') = (s.drop c).drop ck' := by
                  rw [List.drop_drop, Nat.add_comm]
                rw [hdd, hD, ← hcmds]
                simp only [BatchOut.mk.injEq, List.drop_succ_cons, List.length_drop,
                  true_and, and_true]
                omega

theorem parseBatch_split {s : List Nat} {cmds : List RESPCommand}
    (hbig : s.length + 2 < 2 ^ 63) (hfull : parseBatch s = ⟨cmds, s.length, .ok⟩)
    {i : Nat} (hi : i ≤ s.length) : ∃ k ck, ck ≤ i ∧
      parseBatch (s.take i) = ⟨cmds.take k, ck, .ok⟩ ∧
      parseBatch (s.drop ck) = ⟨cmds.drop k, s.length - ck, .ok⟩ :=
  parseBatch_split_aux s.length s cmds le_rfl hbig hfull i hi

/-! ### Connection reader (`RESPReader`, resp.go) -/

/-- Embeds the `RESPReader` buffer state (resp.go): a fixed-capacity byte
buffer (`buffer.length` is Go `len(r.buffer)`) with indices
`readIndex ≤ writeIndex` delimiting the unparsed window; bytes outside the
window are garbage. -/
structure ReaderState where
  buffer : List Nat
  readIndex : Nat
  writeIndex : Nat

/-- The unparsed window `buffer[readIndex:writeIndex]`. -/
def ReaderState.window (r : ReaderState) : List Nat :=
  (r.buffer.drop r.readIndex).take (r.writeIndex - r.readIndex)

/-- Embeds `NewRESPReader` (resp.go): a zeroed buffer of the given size,
both indices zero. -/
def NewRESPReader (initialBufferSize : Nat) : ReaderState :=
  ⟨List.replicate initialBufferSize 0, 0, 0⟩

/-- Embeds `shiftBuffer` (resp.go): reset the indices when the window is
empty; otherwise, if anything was consumed, copy the live window to the
buffer start (`copy` overwrites only the first `writeIndex - readIndex`
bytes). -/
def shiftBuffer (r : ReaderState) : ReaderState :=
  if r.readIndex = r.writeIndex then
    { buffer := r.buffer, readIndex := 0, writeIndex := 0 }
  else if 0 < r.readIndex then
    { buffer := (r.buffer.drop r.readIndex).take (r.writeIndex - r.readIndex)
        ++ r.buffer.drop (r.writeIndex - r.readIndex),
      readIndex := 0,
      writeIndex := r.writeIndex - r.readIndex }
  else r

/-- Embeds `growBuffer` (resp.go): when free space is at most a quarter of
the capacity, allocate a zeroed buffer of twice the size and copy the live
window to its front. -/
def growBuffer (r : ReaderState) : ReaderState :=
  if r.buffer.length - (r.writeIndex - r.readIndex) ≤ r.buffer.length / 4 then
    { buffer := (r.buffer.drop r.readIndex).take (r.writeIndex - r.readIndex)
        ++ List.replicate (2 * r.buffer.length - (r.writeIndex - r.readIndex)) 0,
      readIndex := 0,
      writeIndex := r.writeIndex - r.readIndex }
  else r

/-- One `conn.Read` into `buffer[writeIndex:]`: the source delivers as many
bytes of `chunk` as fit (like the `bytes.Reader` and the test harness's
`partialReader`). -/
def readInto (r : ReaderState) (chunk : List Nat) : ReaderState :=
  let n := min chunk.length (r.buffer.length - r.writeIndex)
  { buffer := r.buffer.take r.writeIndex ++ chunk.take n
      ++ r.buffer.drop (r.writeIndex + n),
    readIndex := r.readIndex,
    writeIndex := r.writeIndex + n }

/-- Status surfaced by one `ReadCommands` call: clean continue, `io.EOF`
(after parsing the unread remainder), a fatal batch error, or a parser
panic. -/
inductive RCStatus where
  | ok
  | eof
  | err (e : BatchErr)
  | panicked
  deriving DecidableEq

structure ReadResult where
  state : ReaderState
  cmds : List RESPCommand
  status : RCStatus

/-- Embeds one invocation of `RESPReader.ReadCommands` (resp.go):
shift, grow, read once from the connection, then parse every complete
command in the window, advancing `readIndex` by the bytes consumed.
`input = some chunk` models a successful read delivering (what fits of)
`chunk`; `input = none` models the read returning `io.EOF`, in which case
the remaining buffered bytes are parsed and `io.EOF` is surfaced alongside
(unless the parse itself fails). -/
def ReadCommands (r : ReaderState) (input : Option (List Nat)) : ReadResult :=
  let r1 := growBuffer (shiftBuffer r)
  match input with
  | none =>
      let b := parseBatch r1.window
      { state := { buffer := r1.buffer, readIndex := r1.readIndex + b.consumed,
                   writeIndex := r1.writeIndex },
        cmds := b.cmds,
        status := match b.status with
          | .ok => .eof
          | .err e => .err e
          | .panicked => .panicked }
  | some chunk =>
      let r2 := readInto r1 chunk
      let b := parseBatch r2.window
      { state := { buffer := r2.buffer, readIndex := r2.readIndex + b.consumed,
                   writeIndex := r2.writeIndex },
        cmds := b.cmds,
        status := match b.status with
          | .ok => .ok
          | .err e => .err e
          | .panicked => .panicked }

/-! ### Behaviour of the reader state machine on well-formed states

A reachable reader state always has the form `⟨filled ++ junk, ck, filled.length⟩`:
the buffer holds the bytes read so far (`filled`), then garbage, and
`readIndex = ck` marks how much of `filled` has been parsed. -/

theorem shiftBuffer_spec (u junk : List Nat) (ck : Nat) (hck : ck ≤ u.length) :
    ∃ J2 : List Nat,
      shiftBuffer ⟨u ++ junk, ck, u.length⟩ = ⟨u.drop ck ++ J2, 0, u.length - ck⟩ ∧
      (u.drop ck).length + J2.length = u.length + junk.length := by
  unfold shiftBuffer
  dsimp only
  by_cases h1 : ck = u.length
  · rw [if_pos h1]
    subst h1
    refine ⟨u ++ junk, ?_, ?_⟩
    · simp [List.drop_length]
    · simp
  · rw [if_neg h1]
    by_cases h2 : 0 < ck
    · rw [if_pos h2]
      refine ⟨(u ++ junk).drop (u.length - ck), ?_, ?_⟩
      · have hbuf : ((u ++ junk).drop ck).take (u.length - ck) = u.drop ck := by
          rw [List.drop_append_of_le_length hck,
            List.take_append_of_le_length (by simp only [List.length_drop]; omega)]
          have hdl : (u.drop ck).length = u.length - ck := by
            simp only [List.length_drop]
          rw [← hdl, List.take_length]
        rw [hbuf]
      · simp only [List.length_append, List.length_drop]
        omega
    · have hck0 : ck = 0 := by omega
      subst hck0
      rw [if_neg h2]
      exact ⟨junk, by simp, by simp⟩

theorem growBuffer_spec (v J2 : List Nat) :
    ∃ J3 : List Nat,
      growBuffer ⟨v ++ J2, 0, v.length⟩ = ⟨v ++ J3, 0, v.length⟩ ∧
      J2.length ≤ J3.length := by
  unfold growBuffer
  simp only [Nat.sub_zero, List.drop_zero]
  by_cases h : (v ++ J2).length - v.length ≤ (v ++ J2).length / 4
  · rw [if_pos h]
    refine ⟨List.replicate (2 * (v ++ J2).length - v.length) 0, ?_, ?_⟩
    · have hbuf : (v ++ J2).take v.length = v := by
        rw [List.take_append_of_le_length le_rfl, List.take_length]
      rw [hbuf]
    · simp only [List.length_replicate, List.length_append]
      omega
  · rw [if_neg h]
    exact ⟨J2, rfl, le_rfl⟩

theorem readInto_spec (v J3 chunk : List Nat) (hfit : chunk.length ≤ J3.length) :
    readInto ⟨v ++ J3, 0, v.length⟩ chunk =
      ⟨v ++ chunk ++ J3.drop chunk.length, 0, v.length + chunk.length⟩ := by
  unfold readInto
  dsimp only
  have hn : min chunk.length ((v ++ J3).length - v.length) = chunk.length := by
    simp only [List.length_append]
    omega
  rw [hn]
  have hb1 : (v ++ J3).take v.length = v := by
    rw [List.take_append_of_le_length le_rfl, List.take_length]
  have hb2 : chunk.take chunk.length = chunk := List.take_length ..
  have hb3 : (v ++ J3).drop (v.length + chunk.length) = J3.drop chunk.length := by
    rw [List.drop_append]
  rw [hb1, hb2, hb3, List.append_assoc]

theorem window_of_filled (v J4 : List Nat) :
    ReaderState.window ⟨v ++ J4, 0, v.length⟩ = v := by
  unfold ReaderState.window
  dsimp only
  rw [List.drop_zero, Nat.sub_zero, List.take_append_of_le_length le_rfl,
    List.take_length]

/-- One successful `ReadCommands` call on a well-formed reader state whose
chunk fits in the free space: the delivered bytes land behind the live
window, the batch parser runs on `window ++ chunk`, and the state stays
well-formed with the capacity never shrinking. -/
theorem ReadCommands_some_spec (u junk chunk : List Nat) (ck : Nat)
    (hck : ck ≤ u.length) (hfit : chunk.length ≤ junk.length) :
    ∃ junk' : List Nat,
      ReadCommands ⟨u ++ junk, ck, u.length⟩ (some chunk) =
        ⟨⟨(u.drop ck ++ chunk) ++ junk',
          (parseBatch (u.drop ck ++ chunk)).consumed,
          (u.drop ck).length + chunk.length⟩,
         (parseBatch (u.drop ck ++ chunk)).cmds,
         (match (parseBatch (u.drop ck ++ chunk)).status with
          | .ok => RCStatus.ok
          | .err e => .err e
          | .panicked => .panicked)⟩ ∧
      u.length + junk.length ≤ (u.drop ck ++ chunk).length + junk'.length := by
  obtain ⟨J2, hshift, hlen2⟩ := shiftBuffer_spec u junk ck hck
  have hwieq : u.length - ck = (u.drop ck).length := by
    simp only [List.length_drop]
  rw [hwieq] at hshift
  obtain ⟨J3, hgrow, hlen3⟩ := growBuffer_spec (u.drop ck) J2
  have hfit3 : chunk.length ≤ J3.length := by
    simp only [List.length_drop] at hlen2
    omega
  have hread := readInto_spec (u.drop ck) J3 chunk hfit3
  refine ⟨J3.drop chunk.length, ?_, ?_⟩
  · unfold ReadCommands
    dsimp only
    rw [hshift, hgrow, hread]
    have hwin : ReaderState.window
        ⟨u.drop ck ++ chunk ++ J3.drop chunk.length, 0,
          (u.drop ck).length + chunk.length⟩ = u.drop ck ++ chunk := by
      have := window_of_filled (u.drop ck ++ chunk) (J3.drop chunk.length)
      simpa [List.append_assoc, List.length_append] using this
    rw [hwin]
    dsimp only
    rw [Nat.zero_add]
  · have e2 : (u.drop ck ++ chunk).length = (u.drop ck).length + chunk.length := by
      simp
    have e3 : (J3.drop chunk.length).length = J3.length - chunk.length := by
      simp
    have e4 : (u.drop ck).length = u.length - ck := by
      simp
    omega

/-- Claim C2: splitting a valid request byte stream at any offset and
feeding the two halves to the connection reader in two successive reads
yields exactly the same parsed command sequence as feeding the whole stream
in a single read.  `N` is the reader's initial buffer size; the whole
stream must fit in the buffer for a "single read" to be possible, and the
stream must be of physically realizable size. -/
theorem readCommands_split_eq_whole (s : List Nat) (cmds : List RESPCommand)
    (N i : Nat) (hsN : s.length ≤ N)
    (hbig : s.length + 2 < 2 ^ 63) (hi : i ≤ s.length)
    (hvalid : parseBatch s = ⟨cmds, s.length, .ok⟩) :
    (ReadCommands (NewRESPReader N) (some (s.take i))).cmds ++
      (ReadCommands (ReadCommands (NewRESPReader N) (some (s.take i))).state
        (some (s.drop i))).cmds = cmds ∧
    (ReadCommands (NewRESPReader N) (some s)).cmds = cmds ∧
    (ReadCommands (NewRESPReader N) (some (s.take i))).status = .ok ∧
    (ReadCommands (ReadCommands (NewRESPReader N) (some (s.take i))).state
      (some (s.drop i))).status = .ok ∧
    (ReadCommands (NewRESPReader N) (some s)).status = .ok := by
  obtain ⟨k, ck, hck, hT, hD⟩ := parseBatch_split hbig hvalid hi
  have hfresh : NewRESPReader N = (⟨List.replicate N 0, 0, 0⟩ : ReaderState) := rfl
  rw [hfresh]
  -- the whole-stream read
  obtain ⟨jW, hW, _⟩ := ReadCommands_some_spec [] (List.replicate N 0) s 0
    (by simp) (by simp; omega)
  simp only [List.drop_nil, List.nil_append, List.length_nil, Nat.zero_add] at hW
  rw [hvalid] at hW
  dsimp only at hW
  -- the first half
  obtain ⟨j1, h1, hlen1⟩ := ReadCommands_some_spec [] (List.replicate N 0) (s.take i) 0
    (by simp) (by simp [List.length_take]; omega)
  simp only [List.drop_nil, List.nil_append, List.length_nil, Nat.zero_add,
    List.length_replicate] at h1 hlen1
  rw [hT] at h1
  dsimp only at h1
  -- the second half, run from the state the first read leaves behind
  have hfit2 : (s.drop i).length ≤ j1.length := by
    simp only [List.length_drop, List.length_append, List.length_take] at hlen1 ⊢
    omega
  obtain ⟨j2, h2, _⟩ := ReadCommands_some_spec (s.take i) j1 (s.drop i) ck
    (by simp only [List.length_take]; omega) hfit2
  have hseg : (s.take i).drop ck ++ s.drop i = s.drop ck := by
    conv_rhs => rw [← List.take_append_drop i s]
    rw [List.drop_append_of_le_length (by simp only [List.length_take]; omega)]
  rw [hseg, hD] at h2
  dsimp only at h2
  rw [hW, h1]
  dsimp only
  rw [h2]
  dsimp only
  exact ⟨List.take_append_drop k cmds, rfl, rfl, rfl, rfl⟩

/-! ### Value model and keyspace (core.go, concurrentmap.go) -/

/-- Embeds `MiniRedisData` with its implementations `StringData` (byte
payload, possibly a nil slice) and `IntegerData`. -/
inductive MiniRedisData where
  | str (data : Option (List Nat))
  | intData (data : Int)
  deriving DecidableEq

/-- Embeds `MiniRedisObject` (core.go): a payload plus an expiry instant;
`none` models the zero `time.Time` ("never expires" — `IsZero` holds). -/
structure MiniRedisObject where
  data : MiniRedisData
  expiry : Option Int
  deriving DecidableEq

/-- The shared keyspace: `ConcurrentMap[string, MiniRedisObject]`
(concurrentmap.go), with the `RWMutex` elided since every operation is
atomic under the lock.  Keys are Go strings, i.e. byte strings. -/
def KVStore : Type := List Nat → Option MiniRedisObject

/-- Embeds `NewConcurrentMap`: the empty map. -/
def emptyStore : KVStore := fun _ => none

/-- Embeds `ConcurrentMap.Get`. -/
def mapGet (st : KVStore) (k : List Nat) : Option MiniRedisObject := st k

/-- Embeds `ConcurrentMap.Set`. -/
def mapSet (st : KVStore) (k : List Nat) (v : MiniRedisObject) : KVStore :=
  fun k' => if k' = k then some v else st k'

/-- Embeds `ConcurrentMap.Delete`. -/
def mapDelete (st : KVStore) (k : List Nat) : KVStore :=
  fun k' => if k' = k then none else st k'

/-! ### Command handlers (server.go) -/

/-- Handler (semantic) errors, replied as `-ERR <reason>\r\n` without
dropping the connection.  The dynamic parts of the Go messages
(`%w`-wrapped causes, `%T` type names) are not tracked. -/
inductive HandlerErr where
  | setArity
  | getArity
  | echoArity
  | invalidKey
  | invalidValue
  | invalidEchoParam
  deriving DecidableEq

/-- Embeds `handleSet` (server.go): arity at least 2, key from argument 0,
value bytes from argument 1; the value is copied with
`make([]byte, len(value))` + `copy` (hence never nil, even when the client
sent a null bulk string, since `make` of length 0 is an empty non-nil
slice); stored with the zero expiry; the stored `StringData` itself is
returned as the reply. -/
def handleSet (args : List RESPData) (st : KVStore) :
    KVStore × Except HandlerErr MiniRedisData :=
  match args with
  | a0 :: a1 :: _ =>
      match ExtractString a0 with
      | none => (st, .error .invalidKey)
      | some key =>
          match ExtractByteSlice a1 with
          | none => (st, .error .invalidValue)
          | some value =>
              let byteSliceCopy := value.getD []
              let stringData := MiniRedisData.str (some byteSliceCopy)
              let obj : MiniRedisObject := ⟨stringData, none⟩
              (mapSet st key obj, .ok stringData)
  | _ => (st, .error .setArity)

/-- Embeds `handleGet` (server.go): arity exactly 1; an absent key replies
a nil `StringData` (the null bulk string); a record whose expiry is set and
strictly in the past is deleted and treated as absent (lazy expiry);
otherwise the stored payload is returned.  `now` is the value of
`time.Now()` at the moment of the check. -/
def handleGet (now : Int) (args : List RESPData) (st : KVStore) :
    KVStore × Except HandlerErr MiniRedisData :=
  match args with
  | [a0] =>
      match ExtractString a0 with
      | none => (st, .error .invalidKey)
      | some key =>
          match mapGet st key with
          | none => (st, .ok (.str none))
          | some value =>
              match value.expiry with
              | none => (st, .ok value.data)
              | some t =>
                  if now > t then (mapDelete st key, .ok (.str none))
                  else (st, .ok value.data)
  | _ => (st, .error .getArity)

/-- Embeds `handleEcho` (server.go): arity exactly 1; the argument bytes
are echoed back without copying (a null bulk argument stays nil). -/
def handleEcho (args : List RESPData) (st : KVStore) :
    KVStore × Except HandlerErr MiniRedisData :=
  match args with
  | [a0] =>
      match ExtractByteSlice a0 with
      | none => (st, .error .invalidEchoParam)
      | some arg => (st, .ok (.str arg))
  | _ => (st, .error .echoArity)

/-- Embeds `dispatchCommand` (server.go). -/
def dispatchCommand (now : Int) (cmd : RESPCommand) (st : KVStore) :
    KVStore × Except HandlerErr MiniRedisData :=
  match cmd.cmdType with
  | .SET => handleSet cmd.Args st
  | .GET => handleGet now cmd.Args st
  | .ECHO => handleEcho cmd.Args st

/-- Executes a sequence of commands against the keyspace, each with its own
`time.Now()` value, keeping only the store (the replies go to the
respective connections). -/
def execCmds (ops : List (Int × RESPCommand)) (st : KVStore) : KVStore :=
  match ops with
  | [] => st
  | (now, cmd) :: rest => execCmds rest (dispatchCommand now cmd st).1

/-! ### Response writer (resp.go `RESPWriter`, core.go serialization) -/

/-- Fuel-indexed canonical decimal digits; `n + 1` fuel always suffices
since dividing by 10 strictly decreases a positive number. -/
def natDigitsGo : Nat → Nat → List Nat
  | 0, _ => []
  | fuel + 1, n =>
      if n < 10 then [48 + n]
      else natDigitsGo fuel (n / 10) ++ [48 + n % 10]

/-- Canonical decimal digits of a natural number (`strconv.Itoa` for
nonnegative values, and the digits part of `strconv.FormatInt`). -/
def natDigits (n : Nat) : List Nat := natDigitsGo (n + 1) n

theorem natDigitsGo_mono (len : Nat) : ∀ (n f1 f2 : Nat), n ≤ len → n < f1 → n < f2 →
    natDigitsGo f1 n = natDigitsGo f2 n := by
  induction len using Nat.strong_induction_on with
  | _ len ih =>
    intro n f1 f2 hlen h1 h2
    match f1, h1 with
    | g1 + 1, h1 =>
    match f2, h2 with
    | g2 + 1, h2 =>
    rw [natDigitsGo, natDigitsGo]
    split_ifs with hn
    · rfl
    · have hdiv : n / 10 < n := Nat.div_lt_self (by omega) (by omega)
      rw [ih (n / 10) (by omega) (n / 10) g1 g2 le_rfl (by omega) (by omega)]

/-- The recursion equation of `natDigits`. -/
theorem natDigits_eq (n : Nat) :
    natDigits n = if n < 10 then [48 + n] else natDigits (n / 10) ++ [48 + n % 10] := by
  show natDigitsGo (n + 1) n = _
  rw [natDigitsGo]
  split_ifs with hn
  · rfl
  · have hdiv : n / 10 < n := Nat.div_lt_self (by omega) (by omega)
    rw [natDigitsGo_mono (n / 10) (n / 10) n (n / 10 + 1) le_rfl (by omega) (by omega)]
    rfl

/-- Embeds `strconv.FormatInt(i, 10)` as a byte string. -/
def formatInt (i : Int) : List Nat :=
  if i < 0 then 45 :: natDigits (-i).toNat else natDigits i.toNat

/-- Embeds `RESPWriter.WriteBulkString` (resp.go): a nil slice writes the
null bulk string `$-1\r\n`; otherwise `$<len>\r\n<data>\r\n`. -/
def WriteBulkString (b : Option (List Nat)) : List Nat :=
  match b with
  | none => [36, 45, 49, 13, 10]
  | some d => 36 :: natDigits d.length ++ CRLF ++ d ++ CRLF

/-- Embeds `RESPWriter.WriteInteger` (resp.go): `:<decimal>\r\n`. -/
def WriteInteger (i : Int) : List Nat :=
  58 :: formatInt i ++ CRLF

/-- Embeds `RESPWriter.WriteError` (resp.go): `-ERR <reason>\r\n`; the
reason text is the Go error message, not tracked here. -/
def WriteError (msg : List Nat) : List Nat :=
  [45, 69, 82, 82, 32] ++ msg ++ CRLF

/-- Embeds `RESPWriter.WriteValue` (resp.go): `StringData` as a bulk string,
`IntegerData` as an integer. -/
def WriteValue (v : MiniRedisData) : List Nat :=
  match v with
  | .str d => WriteBulkString d
  | .intData n => WriteInteger n

/-! ### Frame serialization for round-trip checking -/

mutual

/-- Serialization of one frame.  Bulk strings and integers are serialized by
the writer's own `WriteBulkString` / `WriteInteger` (resp.go); the writer has
no simple-string or array serializers (the server never sends those frame
types).  Modelled from the spec: section 3 gives `+<text>\r\n` for simple
strings and a length-prefixed `*<len>\r\n<elements>` for arrays, with a null
array rendered by protocol convention as length `-1`. -/
def serializeFrame : RESPData → List Nat
  | .bulk b => WriteBulkString b
  | .int n => WriteInteger n
  | .simple s => 43 :: s ++ CRLF
  | .array none => 42 :: formatInt (-1) ++ CRLF
  | .array (some l) => 42 :: natDigits l.length ++ CRLF ++ serializeList l

/-- Serialization of the elements of an array, in order. -/
def serializeList : List RESPData → List Nat
  | [] => []
  | x :: xs => serializeFrame x ++ serializeList xs

end

/-- The scalar frame values within the scope of the round-trip claim: any
bulk string (including null), any integer a Go `int64` can hold, and any
simple string whose text contains no CRLF pair. -/
def WFScalar : RESPData → Prop
  | .bulk _ => True
  | .int n => -(2 ^ 63) ≤ n ∧ n ≤ 2 ^ 63 - 1
  | .simple s => CLRFIndex s = none
  | .array _ => False

/-- The frame values within the scope of the round-trip claim: a scalar, or
an array whose elements are scalars. -/
def WFFrame (v : RESPData) : Prop :=
  WFScalar v ∨ (∃ l, v = .array (some l) ∧ ∀ x ∈ l, WFScalar x)

/-! ### Per-connection loop (`HandleConnection`, server.go) -/

/-- Whether one iteration of the `HandleConnection` loop keeps the
connection open. -/
inductive ConnStatus where
  | continued
  | closed
  deriving DecidableEq

/-- ASCII bytes of a string literal. -/
def strBytes (s : String) : List Nat := s.data.map Char.toNat

/-- The static part of the Go error message for each handler error (the
`%w` / `%T` dynamic parts are not tracked). -/
def handlerErrMsg : HandlerErr → List Nat
  | .setArity => strBytes "SET command requires at least 2 arguments"
  | .getArity => strBytes "GET command requires exactly 1 argument"
  | .echoArity => strBytes "ECHO command requires exactly 1 argument"
  | .invalidKey => strBytes "invalid key: expected string"
  | .invalidValue => strBytes "invalid value: expected string"
  | .invalidEchoParam => strBytes "invalid echo param: expected string"

/-- Result of one iteration of the `HandleConnection` loop: the reader
state, the keyspace, the bytes flushed to the client during the iteration,
and whether the loop continues. -/
structure ConnStepResult where
  reader : ReaderState
  kv : KVStore
  out : List Nat
  status : ConnStatus

/-- Embeds one iteration of `HandleConnection` (server.go).  If
`ReadCommands` surfaces an error the function returns: on `io.EOF` it
returns `nil` (discarding any commands parsed in the final batch), on any
other error it returns the wrapped error; in both cases nothing is written
to the client — the deferred `conn.Close()` just closes the socket and the
buffered writer is never flushed.  Otherwise every command of the batch is
dispatched, each reply (`WriteValue`) or handler error (`WriteError`) is
buffered, and the writer is flushed once, emitting the concatenation. -/
def connStep (r : ReaderState) (input : Option (List Nat)) (now : Int)
    (kv : KVStore) : ConnStepResult :=
  let res := ReadCommands r input
  match res.status with
  | .eof => ⟨res.state, kv, [], .closed⟩
  | .err _ => ⟨res.state, kv, [], .closed⟩
  | .panicked => ⟨res.state, kv, [], .closed⟩
  | .ok =>
      let step := res.cmds.foldl
        (fun (acc : KVStore × List Nat) cmd =>
          match dispatchCommand now cmd acc.1 with
          | (kv2, .error e) => (kv2, acc.2 ++ WriteError (handlerErrMsg e))
          | (kv2, .ok v) => (kv2, acc.2 ++ WriteValue v))
        (kv, [])
      ⟨res.state, step.1, step.2, .continued⟩

/-! ### Supporting lemmas for the command-level claims -/

/-- Digits recognized by `parseDigitsAux` are ASCII digits. -/
theorem parseDigitsAux_chars {s : List Nat} {acc n : Nat}
    (h : parseDigitsAux s acc = some n) : ∀ a ∈ s, 48 ≤ a ∧ a ≤ 57 := by
  induction s generalizing acc with
  | nil => intro a ha; cases ha
  | cons d rest ih =>
      rw [parseDigitsAux] at h
      split_ifs at h with hd
      intro a ha
      cases ha with
      | head => exact hd
      | tail _ hmem => exact ih h a hmem

/-- A byte string accepted by `strconv.ParseInt` contains no CR byte. -/
theorem goParseInt64_no_cr {s : List Nat} {L : Int} (h : goParseInt64 s = some L) :
    ∀ a ∈ s, a ≠ 13 := by
  unfold goParseInt64 at h
  cases s with
  | nil => cases h
  | cons c rest =>
    dsimp only at h
    have hmag : ∀ (digits : List Nat) (neg : Bool) (v : Int), goParseMag digits neg = some v →
        ∀ a ∈ digits, 48 ≤ a ∧ a ≤ 57 := by
      intro digits neg v hm
      unfold goParseMag at hm
      cases digits with
      | nil => cases hm
      | cons d r =>
        dsimp only at hm
        cases hpd : parseDigitsAux (d :: r) 0 with
        | none => rw [hpd] at hm; cases hm
        | some n => exact fun a ha => parseDigitsAux_chars hpd a ha
    split_ifs at h with h45 h43
    · intro a ha
      cases ha with
      | head => omega
      | tail _ hmem => have := hmag rest true L h a hmem; omega
    · intro a ha
      cases ha with
      | head => omega
      | tail _ hmem => have := hmag rest false L h a hmem; omega
    · intro a ha
      have := hmag (c :: rest) false L h a ha
      omega

/-- A byte string with no CR has no CRLF. -/
theorem CLRFIndex_none_of_no_cr {x : List Nat} (hx : ∀ a ∈ x, a ≠ 13) :
    CLRFIndex x = none := by
  induction x with
  | nil => rfl
  | cons a rest ih =>
      rw [CLRFIndex_cons]
      have ha : a ≠ 13 := hx a (by simp)
      rw [if_neg (by intro ⟨h13, _⟩; exact ha h13),
        ih (fun b hb => hx b (by simp [hb]))]
      rfl

/-- Appending a CRLF after a CRLF-free string puts the first CRLF exactly at
the junction (a trailing CR in `x` does not pair with the appended CR). -/
theorem CLRFIndex_append_crlf {x : List Nat} (hx : CLRFIndex x = none)
    (r : List Nat) : CLRFIndex (x ++ 13 :: 10 :: r) = some x.length := by
  induction x with
  | nil => rw [List.nil_append, CLRFIndex]; simp
  | cons a rest ih =>
      rw [CLRFIndex_cons] at hx
      simp only [List.cons_append]
      rw [CLRFIndex_cons]
      split at hx
      · cases hx
      · rename_i hcond
        simp only [Option.map_eq_none'] at hx
        have hne : ¬(a = 13 ∧ (rest ++ 13 :: 10 :: r).head? = some 10) := by
          intro ⟨h13, hhd⟩
          apply hcond
          refine ⟨h13, ?_⟩
          cases rest with
          | nil => simp at hhd
          | cons b r' => simpa using hhd
        rw [if_neg hne, ih hx]
        rfl

/-- The key a command will write, when it is a `SET` whose key and value
arguments both extract successfully (otherwise `handleSet` leaves the
keyspace unchanged). -/
def setsKey (c : RESPCommand) : Option (List Nat) :=
  match c.cmdType, c.Args with
  | .SET, a0 :: a1 :: _ =>
      match ExtractString a0, ExtractByteSlice a1 with
      | some k, some _ => some k
      | _, _ => none
  | _, _ => none

/-- Any record a reachable keyspace holds at key `k` with zero expiry is
untouched by commands that do not write `k`. -/
theorem execCmds_preserves_key (ops : List (Int × RESPCommand)) :
    ∀ (st : KVStore) (k : List Nat) (d : MiniRedisData),
      st k = some ⟨d, none⟩ → (∀ p ∈ ops, setsKey p.2 ≠ some k) →
      execCmds ops st k = some ⟨d, none⟩ := by
  induction ops with
  | nil => intro st k d h _; exact h
  | cons p rest ih =>
      intro st k d h hnw
      obtain ⟨now, cmd⟩ := p
      rw [execCmds]
      have hstep : (dispatchCommand now cmd st).1 k = some ⟨d, none⟩ := by
        unfold dispatchCommand
        cases hct : cmd.cmdType
        case SET =>
          dsimp only
          unfold handleSet
          cases hargs : cmd.Args with
          | nil => exact h
          | cons a0 args1 =>
            cases args1 with
            | nil => exact h
            | cons a1 rest2 =>
              dsimp only
              cases hk : ExtractString a0 with
              | none => exact h
              | some key =>
                dsimp only
                cases hv : ExtractByteSlice a1 with
                | none => exact h
                | some value =>
                  dsimp only
                  have hkey : key ≠ k := by
                    intro hkk
                    apply hnw (now, cmd) (by simp)
                    unfold setsKey
                    rw [hct, hargs]
                    dsimp only
                    rw [hk, hv]
                    dsimp only
                    rw [hkk]
                  show mapSet st key _ k = _
                  unfold mapSet
                  rw [if_neg (by exact fun hh => hkey hh.symm)]
                  exact h
        case GET =>
          dsimp only
          unfold handleGet
          cases hargs : cmd.Args with
          | nil => exact h
          | cons a0 args1 =>
            cases args1 with
            | cons a1 rest2 => exact h
            | nil =>
              dsimp only
              cases hk : ExtractString a0 with
              | none => exact h
              | some key =>
                dsimp only
                cases hval : mapGet st key with
                | none => exact h
                | some value =>
                  dsimp only
                  cases hexp : value.expiry with
                  | none => exact h
                  | some t =>
                    dsimp only
                    split_ifs with hnow
                    · have hkey : key ≠ k := by
                        intro hkk
                        subst hkk
                        unfold mapGet at hval
                        rw [h] at hval
                        cases hval
                        cases hexp
                      show mapDelete st key k = _
                      unfold mapDelete
                      rw [if_neg (by exact fun hh => hkey hh.symm)]
                      exact h
                    · exact h
        case ECHO =>
          dsimp only
          unfold handleEcho
          cases hargs : cmd.Args with
          | nil => exact h
          | cons a0 args1 =>
            cases args1 with
            | cons a1 rest2 => exact h
            | nil =>
              dsimp only
              cases hv : ExtractByteSlice a0 with
              | none => exact h
              | some arg => exact h
      exact ih (dispatchCommand now cmd st).1 k d hstep
        (fun q hq => hnw q (by simp [hq]))

/-- Claim C1: after a `SET` of payload `P` under key `K` completes, any
subsequent `GET` of `K` returns exactly the stored payload bytes, as long
as no intervening command writes `K` (no delete exists in the command set;
`GET` never deletes a record stored by `SET`, whose expiry is zero). -/
theorem set_then_get_returns_payload
    (st : KVStore) (a0 a1 : RESPData) (rest : List RESPData)
    (k : List Nat) (vOpt : Option (List Nat))
    (ops : List (Int × RESPCommand)) (now : Int) (a : RESPData)
    (hk : ExtractString a0 = some k) (hv : ExtractByteSlice a1 = some vOpt)
    (hnw : ∀ p ∈ ops, setsKey p.2 ≠ some k)
    (ha : ExtractString a = some k) :
    handleGet now [a] (execCmds ops (handleSet (a0 :: a1 :: rest) st).1) =
      (execCmds ops (handleSet (a0 :: a1 :: rest) st).1,
       .ok (.str (some (vOpt.getD [])))) := by
  have hst1 : (handleSet (a0 :: a1 :: rest) st).1 k
      = some ⟨.str (some (vOpt.getD [])), none⟩ := by
    unfold handleSet
    dsimp only
    rw [hk]
    dsimp only
    rw [hv]
    dsimp only
    unfold mapSet
    rw [if_pos rfl]
  have hfinal := execCmds_preserves_key ops (handleSet (a0 :: a1 :: rest) st).1 k
    (.str (some (vOpt.getD []))) hst1 hnw
  unfold handleGet
  dsimp only
  rw [ha]
  dsimp only
  unfold mapGet
  rw [hfinal]

/-- Claim C1 witness. -/
theorem set_then_get_returns_payload_witness :
    ExtractString (.bulk (some [107])) = some [107] ∧
    ExtractByteSlice (.bulk (some [118, 49])) = some (some [118, 49]) ∧
    (∀ p ∈ [((5 : Int), RESPCommand.mk .SET [.bulk (some [106]), .bulk (some [120])]),
            ((6 : Int), RESPCommand.mk .GET [.bulk (some [107])])],
       setsKey p.2 ≠ some [107]) ∧
    handleGet 9 [.bulk (some [107])]
      (execCmds [((5 : Int), RESPCommand.mk .SET [.bulk (some [106]), .bulk (some [120])]),
                 ((6 : Int), RESPCommand.mk .GET [.bulk (some [107])])]
        (handleSet [.bulk (some [107]), .bulk (some [118, 49])] emptyStore).1) =
      (execCmds [((5 : Int), RESPCommand.mk .SET [.bulk (some [106]), .bulk (some [120])]),
                 ((6 : Int), RESPCommand.mk .GET [.bulk (some [107])])]
        (handleSet [.bulk (some [107]), .bulk (some [118, 49])] emptyStore).1,
       .ok (.str (some [118, 49]))) := by
  refine ⟨rfl, rfl, by decide, ?_⟩
  exact set_then_get_returns_payload emptyStore (.bulk (some [107]))
    (.bulk (some [118, 49])) [] [107] (some [118, 49]) _ 9 (.bulk (some [107]))
    rfl rfl (by decide) rfl

/-- Claim C3 (code bug): the frame parser does not always report malformed,
incomplete, or a bounded success.  On the 22-byte input
`$9223372036854775807\r\n` the length line parses to `math.MaxInt64`, the
64-bit incomplete-guard `int64(len(buf)) < parsedLength + int64(consumed) + 2`
wraps around to a negative number and passes, and the slice expression
`buf[consumed : consumed+int(parsedLength)]` is out of range: the Go code
panics (crashing the process, since the per-connection goroutine installs no
`recover`), instead of returning one of the three documented outcomes. -/
theorem parse_consumed_bound_violated_by_overflow :
    parseSingleValue
      [36, 57, 50, 50, 51, 51, 55, 50, 48, 51, 54, 56, 53, 52, 55, 55, 53,
       56, 48, 55, 13, 10] = .panicked := by rfl

/-- Shared inversion: a type byte (never CR), then a byte string accepted by
`strconv.ParseInt`, then CRLF, parses as an integer line consuming the whole
line. -/
theorem parseIntLine_cons {c : Nat} (hc : c ≠ 13) {s : List Nat} {v : Int}
    (hv : goParseInt64 s = some v) (r : List Nat) :
    parseIntLine (c :: (s ++ 13 :: 10 :: r)) = .ok v (s.length + 3) := by
  have hnocr : ∀ a ∈ (c :: s), a ≠ 13 := by
    intro a ha
    cases ha with
    | head => exact hc
    | tail _ h => exact goParseInt64_no_cr hv a h
  have hcrlf := CLRFIndex_append_of_no_cr hnocr r
  unfold parseIntLine
  rw [show c :: (s ++ 13 :: 10 :: r) = (c :: s) ++ 13 :: 10 :: r from rfl, hcrlf]
  dsimp only
  have htake : (((c :: s) ++ 13 :: 10 :: r).take (c :: s).length).drop 1 = s := by
    rw [List.take_left]
    rfl
  rw [htake, hv]
  rfl

/-- Claim C7: any negative bulk-string length line (`-1` or otherwise)
parses as the null bulk string, consuming the length field plus its CRLF
(`s.length + 3` counts the `$`, the length text `s`, and the CRLF);
a zero-length bulk string `$0\r\n\r\n` parses to the empty non-null payload
`some []`, which differs from the null bulk string `none`. -/
theorem bulk_negative_vs_zero_length :
    (∀ (s : List Nat) (L : Int) (rest : List Nat),
       goParseInt64 s = some L → L < 0 →
       parseSingleValue (36 :: s ++ CRLF ++ rest) = .ok (.bulk none) (s.length + 3)) ∧
    parseSingleValue [36, 48, 13, 10, 13, 10] = .ok (.bulk (some [])) 6 ∧
    RESPData.bulk (some []) ≠ RESPData.bulk none := by
  refine ⟨?_, by rfl, by simp⟩
  intro s L rest hL hneg
  rw [parseSingleValue_eq]
  show parseBulkString (36 :: (s ++ CRLF ++ rest)) = .ok (.bulk none) (s.length + 3)
  simp only [CRLF, List.append_assoc, List.cons_append, List.nil_append]
  unfold parseBulkString
  rw [parseIntLine_cons (by decide) hL rest]
  dsimp only
  rw [if_pos hneg]

/-- Claim C7 witness: the negative length `-2`, with trailing bytes behind
the frame. -/
theorem bulk_negative_vs_zero_length_witness :
    goParseInt64 [45, 50] = some (-2) ∧ (-2 : Int) < 0 ∧
    parseSingleValue (36 :: [45, 50] ++ CRLF ++ [88]) = .ok (.bulk none) 5 :=
  ⟨by decide, by decide,
   bulk_negative_vs_zero_length.1 [45, 50] (-2) [88] (by decide) (by decide)⟩

/-- Claim C5: a `GET` with exactly one argument (the key) replies the null
bulk string — serialized by the writer as `$-1\r\n` — when the key is
absent, and the stored payload byte-for-byte when the key holds a record (a
record stored by this server, whose expiry is never populated). -/
theorem get_reply_spec (now : Int) (st : KVStore) (k p : List Nat)
    (a0 : RESPData) (hk : ExtractString a0 = some k) :
    (st k = none →
       handleGet now [a0] st = (st, .ok (.str none)) ∧
       WriteValue (.str none) = [36, 45, 49, 13, 10]) ∧
    (st k = some ⟨.str (some p), none⟩ →
       handleGet now [a0] st = (st, .ok (.str (some p))) ∧
       WriteValue (.str (some p)) = WriteBulkString (some p)) := by
  constructor
  · intro habs
    refine ⟨?_, rfl⟩
    unfold handleGet
    dsimp only
    rw [hk]
    dsimp only
    unfold mapGet
    rw [habs]
  · intro hpres
    refine ⟨?_, rfl⟩
    unfold handleGet
    dsimp only
    rw [hk]
    dsimp only
    unfold mapGet
    rw [hpres]

/-- Claim C5 witness: a miss on the empty keyspace and a hit on a singleton
keyspace. -/
theorem get_reply_spec_witness :
    (handleGet 7 [.bulk (some [97])] emptyStore = (emptyStore, .ok (.str none)) ∧
     WriteValue (.str none) = [36, 45, 49, 13, 10]) ∧
    (handleGet 7 [.bulk (some [97])]
        (mapSet emptyStore [97] ⟨.str (some [118, 50]), none⟩) =
      (mapSet emptyStore [97] ⟨.str (some [118, 50]), none⟩,
       .ok (.str (some [118, 50]))) ∧
     WriteValue (.str (some [118, 50])) = WriteBulkString (some [118, 50])) :=
  ⟨(get_reply_spec 7 emptyStore [97] [118, 50] (.bulk (some [97])) rfl).1 rfl,
   (get_reply_spec 7 (mapSet emptyStore [97] ⟨.str (some [118, 50]), none⟩)
     [97] [118, 50] (.bulk (some [97])) rfl).2 rfl⟩

/-- Claim C8: a successful `SET` stores the value with no expiry and replies
the very `StringData` just stored — a bulk-string echo of the payload, which
the writer serializes as `$<len>\r\n<payload>\r\n`, never as the
conventional `+OK\r\n` simple string. -/
theorem set_reply_echoes_value (a0 a1 : RESPData) (rest : List RESPData)
    (st : KVStore) (k : List Nat) (vOpt : Option (List Nat))
    (hk : ExtractString a0 = some k) (hv : ExtractByteSlice a1 = some vOpt) :
    handleSet (a0 :: a1 :: rest) st =
      (mapSet st k ⟨.str (some (vOpt.getD [])), none⟩,
       .ok (.str (some (vOpt.getD [])))) ∧
    WriteValue (.str (some (vOpt.getD []))) = WriteBulkString (some (vOpt.getD [])) ∧
    WriteValue (.str (some (vOpt.getD []))) ≠ [43, 79, 75, 13, 10] := by
  refine ⟨?_, rfl, ?_⟩
  · unfold handleSet
    dsimp only
    rw [hk]
    dsimp only
    rw [hv]
  · intro hcontra
    simp only [WriteValue, WriteBulkString, List.cons_append] at hcontra
    have h36 := List.head_eq_of_cons_eq hcontra
    omega

/-- Claim C8 witness: `SET k vv` replies the bulk string `$2\r\nvv\r\n`. -/
theorem set_reply_echoes_value_witness :
    handleSet [.bulk (some [107]), .bulk (some [118, 118])] emptyStore =
      (mapSet emptyStore [107] ⟨.str (some [118, 118]), none⟩,
       .ok (.str (some [118, 118]))) ∧
    WriteValue (.str (some [118, 118])) = WriteBulkString (some [118, 118]) ∧
    WriteValue (.str (some [118, 118])) ≠ [43, 79, 75, 13, 10] :=
  set_reply_echoes_value (.bulk (some [107])) (.bulk (some [118, 118])) []
    emptyStore [107] (some [118, 118]) rfl rfl

/-- Claim C9: every record any supported command writes carries the zero
expiry, so on a keyspace whose records all have the zero expiry (an
invariant `emptyStore` starts and every `dispatchCommand` step preserves,
as the first conjunct shows inductively) the lazy-expiry deletion branch of
`GET` is unreachable and `handleGet` never mutates the keyspace. -/
theorem expiry_never_set_and_get_pure (now : Int) (cmd : RESPCommand) (st : KVStore)
    (hinv : ∀ k o, st k = some o → o.expiry = none) :
    (∀ k o, (dispatchCommand now cmd st).1 k = some o → o.expiry = none) ∧
    (∀ args, (handleGet now args st).1 = st) := by
  have hecho : ∀ args, (handleEcho args st).1 = st := by
    intro args
    unfold handleEcho
    match args with
    | [] => rfl
    | a0 :: a1 :: r => rfl
    | [a0] =>
      dsimp only
      cases ExtractByteSlice a0 <;> rfl
  have hget : ∀ args, (handleGet now args st).1 = st := by
    intro args
    unfold handleGet
    match args with
    | [] => rfl
    | a0 :: a1 :: r => rfl
    | [a0] =>
      dsimp only
      cases hk : ExtractString a0 with
      | none => rfl
      | some key =>
        dsimp only
        cases hg : mapGet st key with
        | none => rfl
        | some value =>
          dsimp only
          cases hexp : value.expiry with
          | none => rfl
          | some t =>
            have hnone := hinv key value hg
            rw [hnone] at hexp
            cases hexp
  refine ⟨?_, hget⟩
  intro k o hko
  unfold dispatchCommand at hko
  cases hct : cmd.cmdType
  case GET =>
    rw [hct] at hko
    dsimp only at hko
    rw [hget cmd.Args] at hko
    exact hinv k o hko
  case ECHO =>
    rw [hct] at hko
    dsimp only at hko
    rw [hecho cmd.Args] at hko
    exact hinv k o hko
  case SET =>
    rw [hct] at hko
    dsimp only at hko
    unfold handleSet at hko
    cases hargs : cmd.Args with
    | nil =>
      rw [hargs] at hko
      exact hinv k o hko
    | cons a0 t =>
      cases t with
      | nil =>
        rw [hargs] at hko
        exact hinv k o hko
      | cons a1 r =>
        rw [hargs] at hko
        dsimp only at hko
        cases hk : ExtractString a0 with
        | none =>
          rw [hk] at hko
          exact hinv k o hko
        | some key =>
          rw [hk] at hko
          dsimp only at hko
          cases hv : ExtractByteSlice a1 with
          | none =>
            rw [hv] at hko
            exact hinv k o hko
          | some value =>
            rw [hv] at hko
            dsimp only at hko
            by_cases hkk : k = key
            · unfold mapSet at hko
              rw [if_pos hkk] at hko
              cases hko
              rfl
            · unfold mapSet at hko
              rw [if_neg hkk] at hko
              exact hinv k o hko

/-- Claim C9 witness: the record a concrete `SET` writes has the zero
expiry, and a concrete `GET` leaves the empty keyspace untouched. -/
theorem expiry_never_set_and_get_pure_witness :
    MiniRedisObject.expiry ⟨.str (some [98]), none⟩ = none ∧
    (handleGet 3 [RESPData.bulk (some [99])] emptyStore).1 = emptyStore := by
  constructor
  · exact (expiry_never_set_and_get_pure 3
      ⟨.SET, [.bulk (some [97]), .bulk (some [98])]⟩ emptyStore
      (fun _ _ h => by simp [emptyStore] at h)).1 [97] ⟨.str (some [98]), none⟩
      (by decide)
  · exact (expiry_never_set_and_get_pure 3
      ⟨.SET, [.bulk (some [97]), .bulk (some [98])]⟩ emptyStore
      (fun _ _ h => by simp [emptyStore] at h)).2 [RESPData.bulk (some [99])]

/-- Claim C10: normalizing a command from an empty array — whether a
zero-length array or the null array, both of which Go sees as
`len(arr) == 0` — returns the "command array length 0" error instead of
reading a first element (the Lean embedding is a total function because the
Go code checks the length before indexing), and the batch parser surfaces
the wire form `*0\r\n` of the empty array as a connection-fatal command
error after consuming the 4-byte frame. -/
theorem parse_command_empty_array :
    ParseCommand (some []) = .error .emptyArray ∧
    ParseCommand none = .error .emptyArray ∧
    parseBatch [42, 48, 13, 10] = ⟨[], 4, .err (.cmdError .emptyArray)⟩ := by
  refine ⟨rfl, rfl, ?_⟩
  rfl

/-- Claim C6 (amended): when the parser reports a malformed frame,
`HandleConnection` returns the error without writing anything — the
`-ERR <reason>\r\n` reply promised by the spec is never sent (`WriteError`
exists but is not called on this path, and the buffered writer is never
flushed); only the deferred `conn.Close()` runs, so the connection closes
with no bytes written. -/
theorem fatal_parse_error_closes_silently (r : ReaderState)
    (input : Option (List Nat)) (now : Int) (kv : KVStore) (e : BatchErr)
    (herr : (ReadCommands r input).status = .err e) :
    connStep r input now kv =
      ⟨(ReadCommands r input).state, kv, [], .closed⟩ := by
  unfold connStep
  dsimp only
  rw [herr]

/-- Claim C6 witness: the unknown type byte `@` (64) makes the first read
fail and the connection close silently. -/
theorem fatal_parse_error_closes_silently_witness :
    (ReadCommands (NewRESPReader 8) (some [64])).status = .err .malformedFrame ∧
    connStep (NewRESPReader 8) (some [64]) 0 emptyStore =
      ⟨(ReadCommands (NewRESPReader 8) (some [64])).state, emptyStore, [],
       .closed⟩ :=
  ⟨rfl, fatal_parse_error_closes_silently (NewRESPReader 8) (some [64]) 0
    emptyStore .malformedFrame rfl⟩

/-- Claim C6 counterexample: the original claim promised a `-ERR` reply
before the close; on the malformed input `@` the connection closes having
written nothing at all — the output is empty, in particular it does not
start with `-ERR`. -/
theorem fatal_parse_error_writes_nothing :
    (connStep (NewRESPReader 8) (some [64]) 0 emptyStore).out = [] ∧
    (connStep (NewRESPReader 8) (some [64]) 0 emptyStore).status = .closed ∧
    (connStep (NewRESPReader 8) (some [64]) 0 emptyStore).out.take 4 ≠
      [45, 69, 82, 82] := by
  refine ⟨rfl, rfl, by decide⟩

/-- The 20-byte wire form of `*2\r\n$3\r\nGET\r\n$1\r\nk\r\n` — the
command `GET k` — used to witness the split-stream claim. -/
def getWire : List Nat :=
  [42, 50, 13, 10, 36, 51, 13, 10, 71, 69, 84, 13, 10, 36, 49, 13, 10,
   107, 13, 10]

/-- Claim C2 witness: `GET k` split after 7 bytes (inside the second
frame), fed to a fresh reader with a 32-byte buffer, parses to the same
single command as the unsplit stream. -/
theorem readCommands_split_eq_whole_witness :
    (ReadCommands (NewRESPReader 32) (some (getWire.take 7))).cmds ++
      (ReadCommands (ReadCommands (NewRESPReader 32) (some (getWire.take 7))).state
        (some (getWire.drop 7))).cmds =
      [⟨.GET, [.bulk (some [107])]⟩] ∧
    (ReadCommands (NewRESPReader 32) (some getWire)).cmds =
      [⟨.GET, [.bulk (some [107])]⟩] :=
  ⟨(readCommands_split_eq_whole getWire [⟨.GET, [.bulk (some [107])]⟩] 32 7
      (by decide) (by decide) (by decide) rfl).1,
   (readCommands_split_eq_whole getWire [⟨.GET, [.bulk (some [107])]⟩] 32 7
      (by decide) (by decide) (by decide) rfl).2.1⟩

/-! ### Round trip: the writer's output parses back (claim C4) -/

/-- `natDigits` never produces the empty string. -/
theorem natDigits_ne_nil (n : Nat) : natDigits n ≠ [] := by
  rw [natDigits_eq]
  split_ifs with h
  · simp
  · simp

/-- Every byte of `natDigits` is an ASCII digit. -/
theorem natDigits_chars (n : Nat) : ∀ d ∈ natDigits n, 48 ≤ d ∧ d ≤ 57 := by
  induction n using Nat.strong_induction_on with
  | _ n ih =>
    rw [natDigits_eq]
    split_ifs with h
    · intro d hd
      simp only [List.mem_singleton] at hd
      omega
    · intro d hd
      rw [List.mem_append] at hd
      cases hd with
      | inl hmem => exact ih (n / 10) (Nat.div_lt_self (by omega) (by omega)) d hmem
      | inr hmem =>
        simp only [List.mem_singleton] at hmem
        have : n % 10 < 10 := Nat.mod_lt _ (by omega)
        omega

/-- `parseDigitsAux` eats an appended suffix with the accumulated value. -/
theorem parseDigitsAux_append (xs ys : List Nat) (acc : Nat) :
    parseDigitsAux (xs ++ ys) acc =
      match parseDigitsAux xs acc with
      | none => none
      | some m => parseDigitsAux ys m := by
  induction xs generalizing acc with
  | nil => rfl
  | cons d rest ih =>
    simp only [List.cons_append, parseDigitsAux]
    split_ifs with hd
    · exact ih _
    · rfl

/-- Parsing the canonical digits of `n` appends `n` to the accumulator. -/
theorem parseDigitsAux_natDigits (n : Nat) : ∀ acc,
    parseDigitsAux (natDigits n) acc =
      some (acc * 10 ^ (natDigits n).length + n) := by
  induction n using Nat.strong_induction_on with
  | _ n ih =>
    intro acc
    rw [natDigits_eq]
    split_ifs with h
    · rw [parseDigitsAux, if_pos (by omega), parseDigitsAux]
      simp only [List.length_cons, List.length_nil, pow_one, Option.some.injEq]
      omega
    · rw [parseDigitsAux_append,
        ih (n / 10) (Nat.div_lt_self (by omega) (by omega)) acc]
      dsimp only
      have hd : 48 ≤ 48 + n % 10 ∧ 48 + n % 10 ≤ 57 := by
        have : n % 10 < 10 := Nat.mod_lt _ (by omega)
        omega
      rw [parseDigitsAux, if_pos hd, parseDigitsAux]
      have harith : (acc * 10 ^ (natDigits (n / 10)).length + n / 10) * 10 +
          (48 + n % 10 - 48) =
          acc * 10 ^ ((natDigits (n / 10)).length + 1) + n := by
        have hmod : 48 + n % 10 - 48 = n % 10 := by omega
        rw [hmod, pow_succ]
        have hexp : (acc * 10 ^ (natDigits (n / 10)).length + n / 10) * 10 + n % 10 =
            acc * (10 ^ (natDigits (n / 10)).length * 10) +
              (10 * (n / 10) + n % 10) := by ring
        rw [hexp, Nat.div_add_mod]
      rw [harith]
      simp [List.length_append]

/-- Parsing the canonical digits of `n` from a zero accumulator yields `n`. -/
theorem parseDigitsAux_natDigits_zero (n : Nat) :
    parseDigitsAux (natDigits n) 0 = some n := by
  rw [parseDigitsAux_natDigits]
  simp

/-- `goParseMag` inverts the canonical digits without a sign. -/
theorem goParseMag_natDigits_pos (n : Nat) (hhi : (n : Int) ≤ 2 ^ 63 - 1) :
    goParseMag (natDigits n) false = some (n : Int) := by
  unfold goParseMag
  cases hnd : natDigits n with
  | nil => exact absurd hnd (natDigits_ne_nil n)
  | cons d rest =>
    dsimp only
    rw [← hnd, parseDigitsAux_natDigits_zero]
    dsimp only
    rw [if_pos ⟨le_trans (by norm_num) (Int.ofNat_nonneg n), hhi⟩]
    rfl

/-- `goParseMag` inverts the canonical digits under a minus sign. -/
theorem goParseMag_natDigits_neg (n : Nat) (hlo : -(2 ^ 63) ≤ -(n : Int)) :
    goParseMag (natDigits n) true = some (-(n : Int)) := by
  unfold goParseMag
  cases hnd : natDigits n with
  | nil => exact absurd hnd (natDigits_ne_nil n)
  | cons d rest =>
    dsimp only
    rw [← hnd, parseDigitsAux_natDigits_zero]
    dsimp only
    rw [if_pos ⟨hlo, le_trans (neg_nonpos.mpr (Int.ofNat_nonneg n)) (by norm_num)⟩]
    rfl

/-- `strconv.ParseInt` inverts `strconv.FormatInt` on the `int64` range. -/
theorem goParseInt64_formatInt (i : Int) (h1 : -(2 ^ 63) ≤ i)
    (h2 : i ≤ 2 ^ 63 - 1) : goParseInt64 (formatInt i) = some i := by
  unfold formatInt
  by_cases hneg : i < 0
  · rw [if_pos hneg]
    have hval : (((-i).toNat : Int)) = -i := by omega
    unfold goParseInt64
    dsimp only
    rw [if_pos rfl, goParseMag_natDigits_neg (-i).toNat (by rw [hval]; omega)]
    rw [hval, Int.neg_neg]
  · rw [if_neg hneg]
    have hval : ((i.toNat : Int)) = i := by omega
    cases hnd : natDigits i.toNat with
    | nil => exact absurd hnd (natDigits_ne_nil _)
    | cons c rest =>
      have hc := natDigits_chars i.toNat c (by rw [hnd]; exact List.mem_cons_self c rest)
      show (if c = 45 then goParseMag rest true
        else if c = 43 then goParseMag rest false
        else goParseMag (c :: rest) false) = some i
      rw [if_neg (by omega), if_neg (by omega), ← hnd,
        goParseMag_natDigits_pos i.toNat (by rw [hval]; exact h2), hval]

/-- `strconv.ParseInt` inverts the canonical digits of a representable `Nat`. -/
theorem goParseInt64_natDigits (n : Nat) (hn : (n : Int) ≤ 2 ^ 63 - 1) :
    goParseInt64 (natDigits n) = some (n : Int) := by
  have h := goParseInt64_formatInt (n : Int)
    (le_trans (by norm_num) (Int.ofNat_nonneg n)) hn
  have ht : ((n : Int)).toNat = n := by omega
  rwa [formatInt, if_neg (by omega), ht] at h

set_option maxRecDepth 4000 in
/-- Round trip for scalar frames: serializing with the writer and parsing
back yields the frame unchanged, consuming the whole serialization. -/
theorem serialize_parse_scalar (v : RESPData) (hwf : WFScalar v)
    (hbig : (serializeFrame v).length + 2 < 2 ^ 63) :
    parseSingleValue (serializeFrame v) = .ok v (serializeFrame v).length := by
  cases v with
  | array a => exact hwf.elim
  | int n =>
    have hser : serializeFrame (.int n) = 58 :: (formatInt n ++ 13 :: 10 :: []) := rfl
    rw [hser, parseSingleValue_eq]
    show parseIntegerFrame (58 :: (formatInt n ++ 13 :: 10 :: [])) =
      .ok (.int n) (58 :: (formatInt n ++ 13 :: 10 :: [])).length
    unfold parseIntegerFrame
    rw [parseIntLine_cons (by decide) (goParseInt64_formatInt n hwf.1 hwf.2) []]
    dsimp only
    congr 1
    simp only [List.length_cons, List.length_append, List.length_nil]
  | simple s =>
    have hser : serializeFrame (.simple s) = 43 :: (s ++ 13 :: 10 :: []) := rfl
    rw [hser, parseSingleValue_eq]
    show parseSimpleString (43 :: (s ++ 13 :: 10 :: [])) =
      .ok (.simple s) (43 :: (s ++ 13 :: 10 :: [])).length
    have hx : CLRFIndex (43 :: s) = none := by
      rw [CLRFIndex_cons, if_neg (by rintro ⟨h13, _⟩; omega), hwf]
      rfl
    have hcrlf := CLRFIndex_append_crlf hx []
    unfold parseSimpleString
    rw [show 43 :: (s ++ 13 :: 10 :: []) = (43 :: s) ++ 13 :: 10 :: [] from rfl,
      hcrlf]
    dsimp only
    rw [List.take_left]
    show ParseResult.ok (.simple s) ((43 :: s).length + 2) = _
    congr 1
    simp only [List.length_cons, List.length_append, List.length_nil]
  | bulk b =>
    cases b with
    | none => rfl
    | some d =>
      have hser : serializeFrame (.bulk (some d)) =
          36 :: (natDigits d.length ++ 13 :: 10 :: (d ++ 13 :: 10 :: [])) := by
        show 36 :: (natDigits d.length ++ CRLF ++ d ++ CRLF) = _
        simp [CRLF, List.append_assoc]
      rw [hser] at hbig ⊢
      simp only [List.length_cons, List.length_append, List.length_nil] at hbig
      rw [parseSingleValue_eq]
      show parseBulkString
          (36 :: (natDigits d.length ++ 13 :: 10 :: (d ++ 13 :: 10 :: []))) =
        .ok (.bulk (some d))
          (36 :: (natDigits d.length ++ 13 :: 10 :: (d ++ 13 :: 10 :: []))).length
      have hnum : goParseInt64 (natDigits d.length) = some (d.length : Int) :=
        goParseInt64_natDigits d.length (by omega)
      unfold parseBulkString
      rw [parseIntLine_cons (by decide) hnum (d ++ 13 :: 10 :: [])]
      dsimp only
      rw [if_neg (by omega)]
      have hblen :
          (36 :: (natDigits d.length ++ 13 :: 10 :: (d ++ 13 :: 10 :: []))).length =
            (natDigits d.length).length + d.length + 5 := by
        simp only [List.length_cons, List.length_append, List.length_nil]
        omega
      have hw1 : wrap64 ((d.length : Int) + ((natDigits d.length).length + 3 : Nat) + 2) =
          (d.length : Int) + ((natDigits d.length).length + 3 : Nat) + 2 :=
        wrap64_eq_self (by push_cast; omega) (by push_cast; omega)
      rw [hw1, hblen, if_neg (by push_cast; omega)]
      have hw2 : wrap64 ((((natDigits d.length).length + 3 : Nat) : Int) + d.length) =
          (((natDigits d.length).length + 3 : Nat) : Int) + d.length :=
        wrap64_eq_self (by push_cast; omega) (by push_cast; omega)
      rw [hw2, if_pos ⟨by push_cast; omega, by push_cast; omega⟩]
      have htoNat1 :
          ((((natDigits d.length).length + 3 : Nat) : Int) + d.length -
            (((natDigits d.length).length + 3 : Nat) : Int)).toNat = d.length := by
        omega
      have htoNat2 :
          ((((natDigits d.length).length + 3 : Nat) : Int) + (d.length : Int)).toNat =
            (natDigits d.length).length + 3 + d.length := by
        omega
      rw [htoNat1, htoNat2]
      have hdrop :
          (36 :: (natDigits d.length ++ 13 :: 10 :: (d ++ 13 :: 10 :: []))).drop
            ((natDigits d.length).length + 3) = d ++ 13 :: 10 :: [] := by
        have hsplit :
            36 :: (natDigits d.length ++ 13 :: 10 :: (d ++ 13 :: 10 :: [])) =
              (36 :: (natDigits d.length ++ [13, 10])) ++ (d ++ 13 :: 10 :: []) := by
          simp [List.append_assoc]
        rw [hsplit]
        apply List.drop_left'
        simp only [List.length_cons, List.length_append, List.length_nil]
      rw [hdrop]
      clear hser hbig hnum hblen hw1 hw2 htoNat1 htoNat2 hdrop hwf
      rw [List.take_left]
      congr 1
      omega

/-- A member's serialization is no longer than the whole list's. -/
theorem serializeList_mem_length {l : List RESPData} {x : RESPData} (hx : x ∈ l) :
    (serializeFrame x).length ≤ (serializeList l).length := by
  induction l with
  | nil => cases hx
  | cons y ys ih =>
    simp only [serializeList, List.length_append]
    cases hx with
    | head => omega
    | tail _ h => have := ih h; omega

/-- Every frame serializes to at least one byte, so an array's element count
is bounded by its serialized size. -/
theorem serializeList_length_ge (l : List RESPData) :
    l.length ≤ (serializeList l).length := by
  induction l with
  | nil => simp [serializeList]
  | cons x xs ih =>
    simp only [serializeList, List.length_append, List.length_cons]
    have hx : 1 ≤ (serializeFrame x).length := by
      cases x with
      | simple s => simp [serializeFrame]
      | int n => simp [serializeFrame, WriteInteger]
      | bulk b => cases b <;> simp [serializeFrame, WriteBulkString]
      | array a => cases a <;> simp [serializeFrame]
    omega

/-- The element loop of `parseArray` recovers a serialized list of scalar
frames, consuming exactly the serialization, with anything behind it. -/
theorem serializeList_elems (l : List RESPData) (hwf : ∀ x ∈ l, WFScalar x)
    (hbig : (serializeList l).length + 2 < 2 ^ 63) (r : List Nat) :
    parseElems l.length (serializeList l ++ r) = .ok l (serializeList l).length := by
  induction l with
  | nil => simp only [serializeList, List.length_nil, List.nil_append, parseElems_zero]
  | cons x xs ih =>
    have hwx := hwf x (List.mem_cons_self x xs)
    have hbx : (serializeFrame x).length + 2 < 2 ^ 63 := by
      have := serializeList_mem_length (List.mem_cons_self x xs)
      omega
    have hsx := serialize_parse_scalar x hwx hbx
    have hsx' := parse_append hbx hsx (serializeList xs ++ r)
    show parseElems (xs.length + 1) (serializeList (x :: xs) ++ r) = _
    rw [parseElems_succ]
    have hbuf : serializeList (x :: xs) ++ r =
        serializeFrame x ++ (serializeList xs ++ r) := by
      simp only [serializeList, List.append_assoc]
    rw [hbuf, hsx']
    dsimp only
    rw [List.drop_left,
      ih (fun y hy => hwf y (List.mem_cons_of_mem x hy))
        (by simp only [serializeList, List.length_append] at hbig; omega)]
    dsimp only
    congr 1
    simp [serializeList, List.length_append]

/-- The `*` dispatch of `parseSingleValue` in closed form. -/
theorem parseSingleValue_array (rest : List Nat) :
    parseSingleValue (42 :: rest) =
      match CLRFIndex (42 :: rest) with
      | none => .incomplete
      | some e =>
          match goParseInt64 (((42 :: rest).take e).drop 1) with
          | none => .malformed
          | some L =>
              if L < 0 then .ok (.array none) (e + 2)
              else
                match parseElems L.toNat ((42 :: rest).drop (e + 2)) with
                | .ok elems tc => .ok (.array (some elems)) (e + 2 + tc)
                | .incomplete => .incomplete
                | .malformed => .malformed
                | .panicked => .panicked := by
  rw [parseSingleValue_eq]
  rfl

/-- Round trip for an array of scalar frames. -/
theorem serialize_parse_array (l : List RESPData) (hall : ∀ x ∈ l, WFScalar x)
    (hbig : (serializeFrame (.array (some l))).length + 2 < 2 ^ 63) :
    parseSingleValue (serializeFrame (.array (some l))) =
      .ok (.array (some l)) (serializeFrame (.array (some l))).length := by
  have hser : serializeFrame (.array (some l)) =
      42 :: (natDigits l.length ++ 13 :: 10 :: serializeList l) := by
    simp [serializeFrame, CRLF, List.append_assoc]
  rw [hser] at hbig ⊢
  simp only [List.length_cons, List.length_append] at hbig
  have hnel := serializeList_length_ge l
  rw [parseSingleValue_array]
  have hx : CLRFIndex (42 :: natDigits l.length) = none := by
    rw [CLRFIndex_cons, if_neg (by rintro ⟨h13, _⟩; omega),
      CLRFIndex_none_of_no_cr
        (fun a ha => by have := natDigits_chars l.length a ha; omega)]
    rfl
  have hcrlf := CLRFIndex_append_crlf hx (serializeList l)
  rw [show 42 :: (natDigits l.length ++ 13 :: 10 :: serializeList l) =
      (42 :: natDigits l.length) ++ 13 :: 10 :: serializeList l from rfl, hcrlf]
  dsimp only
  rw [List.take_left]
  have hd1 : (42 :: natDigits l.length).drop 1 = natDigits l.length := rfl
  rw [hd1, goParseInt64_natDigits l.length (by push_cast; omega)]
  dsimp only
  rw [if_neg (by omega)]
  have ht : ((l.length : Int)).toNat = l.length := by omega
  have hdrop : ((42 :: natDigits l.length) ++ 13 :: 10 :: serializeList l).drop
      ((42 :: natDigits l.length).length + 2) = serializeList l := by
    rw [List.drop_append]
    rfl
  rw [ht, hdrop]
  have hel := serializeList_elems l hall (by omega) []
  rw [List.append_nil] at hel
  rw [hel]
  dsimp only
  congr 1
  simp only [List.length_cons, List.length_append]
  omega

/-- Claim C4 (amended): serialize-then-parse is the identity on the frames
the writer can actually emit unambiguously — bulk strings (null included),
`int64` integers, simple strings whose text contains no CRLF, and arrays of
such scalars — consuming exactly the serialized bytes, whenever the
serialization is of physically realizable size.  (The original unqualified
claim is false: the counterexample shows a simple string containing CRLF
that does not survive the round trip.) -/
theorem serialize_parse_roundtrip (v : RESPData) (hwf : WFFrame v)
    (hbig : (serializeFrame v).length + 2 < 2 ^ 63) :
    parseSingleValue (serializeFrame v) = .ok v (serializeFrame v).length := by
  cases hwf with
  | inl hsc => exact serialize_parse_scalar v hsc hbig
  | inr hex =>
    obtain ⟨l, rfl, hall⟩ := hex
    exact serialize_parse_array l hall hbig

/-- Claim C4 counterexample: the simple string whose text is the CRLF pair
itself serializes to `+\r\n\r\n`, which parses back as the empty simple
string — not the original frame. -/
theorem serialize_parse_not_id :
    parseSingleValue (serializeFrame (.simple [13, 10])) = .ok (.simple []) 3 ∧
    RESPData.simple [] ≠ RESPData.simple [13, 10] := by
  refine ⟨rfl, by simp⟩

/-- Claim C4 witness: an array holding a bulk string, an integer, a simple
string and a null bulk string round-trips. -/
theorem serialize_parse_roundtrip_witness :
    WFFrame (.array (some [.bulk (some [97]), .int (-5), .simple [104],
      .bulk none])) ∧
    (serializeFrame (.array (some [.bulk (some [97]), .int (-5), .simple [104],
      .bulk none]))).length + 2 < 2 ^ 63 ∧
    parseSingleValue (serializeFrame (.array (some [.bulk (some [97]),
        .int (-5), .simple [104], .bulk none]))) =
      .ok (.array (some [.bulk (some [97]), .int (-5), .simple [104],
        .bulk none]))
        (serializeFrame (.array (some [.bulk (some [97]), .int (-5),
          .simple [104], .bulk none]))).length := by
  have hwf : WFFrame (.array (some [.bulk (some [97]), .int (-5), .simple [104],
      .bulk none])) := by
    refine Or.inr ⟨_, rfl, ?_⟩
    intro x hx
    simp only [List.mem_cons, List.not_mem_nil, or_false] at hx
    rcases hx with rfl | rfl | rfl | rfl
    · exact trivial
    · exact ⟨by norm_num, by norm_num⟩
    · rfl
    · exact trivial
  refine ⟨hwf, by decide, ?_⟩
  exact serialize_parse_roundtrip _ hwf (by decide)

end MiniRedis
